import Mathlib

/-!
Shallow embedding of `pnmdump` (src/pnmdumpmain.c): the PGM codec
(`TryReadPgmInfo`, `TryReadPgmData`, `WritePgmInfo`, `WritePgmData`), the
scale-specification parser (`TryParseScalar`), the output-descriptor
derivation (`TrySetPgmInfo`) and the box-downscale transform
(`GetScaledDownBoxData`).

Byte streams are `List Char`; C `int` is `Int`; C `double` is `ℚ`
(every literal arising in the developments below is exactly representable,
and only order comparisons and exact arithmetic are used).
-/

namespace Pnmdump

/-! ## Character classes and stream scanning (fscanf model) -/

/-- The characters `fscanf` treats as whitespace. -/
def isWs (c : Char) : Bool :=
  c == ' ' || c == '\t' || c == '\n' || c == '\r' || c == '\x0b' || c == '\x0c'

/-- Skip leading whitespace, as a whitespace directive or the implicit
whitespace skip of `%s` / `%i` / `%lf` does. -/
def skipWs (s : List Char) : List Char := s.dropWhile isWs

/-- Octal digit. -/
def isOct (c : Char) : Bool := '0' ≤ c && c ≤ '7'

/-- Hexadecimal digit. -/
def isHex (c : Char) : Bool :=
  c.isDigit || ('a' ≤ c && c ≤ 'f') || ('A' ≤ c && c ≤ 'F')

/-- Numeric value of a (decimal or hexadecimal) digit character. -/
def digVal (c : Char) : ℕ :=
  if c.isDigit then c.toNat - 48
  else if 'a' ≤ c && c ≤ 'f' then c.toNat - 87
  else c.toNat - 55

/-- Value of a digit string in the given base, most significant digit first. -/
def digitsVal (base : ℕ) (ds : List Char) : ℕ :=
  ds.foldl (fun acc c => base * acc + digVal c) 0

/-- Outcome of one `fscanf("%i")` conversion: a successful conversion
carries the value, the unconsumed rest of the stream and whether the
read ran into end-of-file (the C `feof` flag after the call); a matching
failure makes `fscanf` return 0; an input failure (end of file before the
conversion completes) makes it return `EOF`. -/
inductive ScanIntRes where
  | ok (v : Int) (rest : List Char) (hitEof : Bool)
  | matchFail
  | inputFail
deriving DecidableEq, Repr

/-- Magnitude part of `%i` (C `strtol` base-0 semantics: `0x` prefix is
hexadecimal, a leading `0` is octal, otherwise decimal); `cs` starts with a
digit. -/
def scanMag (sgn : Int) (cs : List Char) : ScanIntRes :=
  if cs.headD 'z' = '0' then
    if cs.tail.headD 'z' = 'x' ∨ cs.tail.headD 'z' = 'X' then
      -- "0x": a hex digit must follow, else the item "0x" is not a matching
      -- sequence and the conversion is a matching failure
      if isHex (cs.tail.tail.headD 'z') then
        .ok (sgn * (digitsVal 16 (cs.tail.tail.span isHex).1 : ℕ))
          (cs.tail.tail.span isHex).2 (cs.tail.tail.span isHex).2.isEmpty
      else .matchFail
    else
      .ok (sgn * (digitsVal 8 (cs.tail.span isOct).1 : ℕ))
        (cs.tail.span isOct).2 (cs.tail.span isOct).2.isEmpty
  else
    .ok (sgn * (digitsVal 10 (cs.span Char.isDigit).1 : ℕ))
      (cs.span Char.isDigit).2 (cs.span Char.isDigit).2.isEmpty

/-- One `fscanf("%i")` conversion. -/
def scanInt (s : List Char) : ScanIntRes :=
  match skipWs s with
  | [] => .inputFail
  | c :: r =>
      if c = '-' ∨ c = '+' then
        match r with
        | [] => .inputFail
        | d :: _ =>
            if d.isDigit then scanMag (if c = '-' then -1 else 1) r
            else .matchFail
      else if c.isDigit then scanMag 1 (c :: r)
      else .matchFail

/-! ## `sscanf("%lf")` model over ℚ -/

/-- `10 ^ n` over ℚ, by structural recursion. -/
def pow10 : ℕ → ℚ
  | 0 => 1
  | n + 1 => 10 * pow10 n

/-- `10 ^ e` over ℚ for an integer exponent. -/
def zpow10 (e : ℤ) : ℚ := if 0 ≤ e then pow10 e.toNat else 1 / pow10 (-e).toNat

/-- Fractional-digit valuation: `fracVal ds = 0.d₁d₂…` as a rational. -/
def fracVal (ds : List Char) : ℚ :=
  (digitsVal 10 ds : ℚ) / pow10 ds.length

/-- Optional exponent part `[eE][+-]?digits` of a floating literal; consumed
only when well formed, as `strtod` backtracks otherwise. -/
def scanExp (cs : List Char) : ℤ × List Char :=
  match cs with
  | 'e' :: r =>
      match r with
      | '-' :: r2 => if (r2.headD 'z').isDigit then
            let p := r2.span Char.isDigit; (-(digitsVal 10 p.1 : ℤ), p.2)
          else (0, cs)
      | '+' :: r2 => if (r2.headD 'z').isDigit then
            let p := r2.span Char.isDigit; ((digitsVal 10 p.1 : ℤ), p.2)
          else (0, cs)
      | _ => if (r.headD 'z').isDigit then
            let p := r.span Char.isDigit; ((digitsVal 10 p.1 : ℤ), p.2)
          else (0, cs)
  | 'E' :: r =>
      match r with
      | '-' :: r2 => if (r2.headD 'z').isDigit then
            let p := r2.span Char.isDigit; (-(digitsVal 10 p.1 : ℤ), p.2)
          else (0, cs)
      | '+' :: r2 => if (r2.headD 'z').isDigit then
            let p := r2.span Char.isDigit; ((digitsVal 10 p.1 : ℤ), p.2)
          else (0, cs)
      | _ => if (r.headD 'z').isDigit then
            let p := r.span Char.isDigit; ((digitsVal 10 p.1 : ℤ), p.2)
          else (0, cs)
  | _ => (0, cs)

/-- Unsigned decimal floating literal `digits [. digits] [exp]`; at least one
digit must be present in the integer or fractional part. -/
def scanMantissa (cs : List Char) : Option (ℚ × List Char) :=
  let ip := cs.span Char.isDigit
  if ip.2.headD 'z' = '.' then
    let fp := ip.2.tail.span Char.isDigit
    if ip.1.isEmpty && fp.1.isEmpty then none
    else
      let e := scanExp fp.2
      some (((digitsVal 10 ip.1 : ℚ) + fracVal fp.1) * zpow10 e.1, e.2)
  else
    if ip.1.isEmpty then none
    else
      let e := scanExp ip.2
      some ((digitsVal 10 ip.1 : ℚ) * zpow10 e.1, e.2)

/-- One `sscanf("%lf")` conversion (decimal forms; the exact value is kept as
a rational). `none` is a matching or input failure, which in every use below
aborts the enclosing `sscanf` pattern. -/
def parseDouble (s : List Char) : Option (ℚ × List Char) :=
  match skipWs s with
  | [] => none
  | c :: r =>
      if c = '-' then (scanMantissa r).map (fun p => (-p.1, p.2))
      else if c = '+' then scanMantissa r
      else scanMantissa (c :: r)

/-! ## Pgm data model -/

/-- `enum PgmType`. -/
inductive PgmType where
  | UNKNOWN
  | P2
  | P5
deriving DecidableEq, Repr

/-- `enum ScaleType`. -/
inductive ScaleType where
  | NEAREST_NEIGHBOR
  | BILINEAR
deriving DecidableEq, Repr

/-- The error reports of the program, one constructor per distinct
`fprintf(stderr, …)` failure message on the conversion path. -/
inductive PgmError where
  | corrupted              -- "Corrupted input file"
  | wrongFormat            -- "Input is not in %s format"
  | badScalarFormat        -- "Error, bad scalar format. …"
  | inconsistentDirection  -- "Error, width and height must be scaled in the same way…"
  | nonPositiveScale       -- "Error, scalar must be a non zero positive."
  | outputTooLarge         -- "Error, output too large, max 1920x1080"
deriving DecidableEq, Repr

/-- Structural decidable equality for `Except` results. -/
instance {e a : Type} [DecidableEq e] [DecidableEq a] : DecidableEq (Except e a) :=
  fun x y =>
    match x, y with
    | .ok u, .ok v => if h : u = v then .isTrue (by rw [h]) else .isFalse (by simp [h])
    | .error u, .error v => if h : u = v then .isTrue (by rw [h]) else .isFalse (by simp [h])
    | .ok _, .error _ => .isFalse (by simp)
    | .error _, .ok _ => .isFalse (by simp)

/-- The header fields of a `PgmFile` (stream and file name are owned by the
excluded I/O layer). -/
structure PgmInfo where
  type : PgmType
  width : Int
  height : Int
  maxDataValue : Int
deriving DecidableEq, Repr

/-- `StrToPgmType`. -/
def StrToPgmType (s : List Char) : PgmType :=
  if s = ['P', '2'] then .P2
  else if s = ['P', '5'] then .P5
  else .UNKNOWN

/-- `PgmTypeToStr` (the C function returns `NULL` for `UNKNOWN`, whose use in
`fprintf` is undefined; it is mapped to the empty string here and is never
exercised by the theorems below). -/
def PgmTypeToStr (t : PgmType) : List Char :=
  match t with
  | .P2 => ['P', '2']
  | .P5 => ['P', '5']
  | .UNKNOWN => []

/-! ## Reading the header: `TryReadPgmInfo`

The C code issues one `fscanf` with format `"%s\n%*[^\n]\n%i %i\n%i\n"`:
a token, a whitespace skip, a nonempty run of non-newline characters, and
three integers interleaved with whitespace skips; the trailing `"\n"`
directive skips whitespace after the last integer.  All four conversions
must succeed. -/

/-- The raw `fscanf` of `TryReadPgmInfo`: returns the magic token, width,
height, max value and the unconsumed rest of the stream, or `none` when the
`fscanf` returns fewer than 4 conversions. -/
def rawReadPgmInfo (s : List Char) :
    Option (List Char × Int × Int × Int × List Char) :=
  -- %s : skip whitespace, read a nonempty non-whitespace token
  match skipWs s with
  | [] => none
  | c :: r =>
      let tokP := (c :: r).span (fun ch => !isWs ch)
      -- "\n" : whitespace skip, then %*[^\n] : nonempty run of non-newline
      let comP := (skipWs tokP.2).span (fun ch => ch != '\n')
      if comP.1.isEmpty then none
      else
        -- "\n%i" : scanInt's own whitespace skip subsumes the directive
        match scanInt comP.2 with
        | .ok w restW _ =>
            match scanInt restW with
            | .ok ht restH _ =>
                match scanInt restH with
                | .ok mx restM _ =>
                    -- trailing "\n" directive: skip whitespace
                    some (tokP.1, w, ht, mx, skipWs restM)
                | _ => none
            | _ => none
        | _ => none

/-- `TryReadPgmInfo`: raw header scan followed by the type
adoption/mismatch logic.  `expected` is `c->iF->type` on entry; the result
carries the final `PgmInfo` and the rest of the stream. -/
def TryReadPgmInfo (expected : PgmType) (s : List Char) :
    Except PgmError (PgmInfo × List Char) :=
  match rawReadPgmInfo s with
  | none => .error .corrupted
  | some (tok, w, ht, mx, rest) =>
      let imageType := StrToPgmType tok
      -- if the input type is unknown, adopt the parsed type (if valid)
      let typ := if expected = .UNKNOWN ∧ imageType ≠ .UNKNOWN then imageType
                 else expected
      if typ ≠ imageType then .error .wrongFormat
      else .ok (⟨typ, w, ht, mx⟩, rest)

/-! ## Reading the body: `TryReadPgmData` -/

/-- State of the body-reading loop: the `data` array (total function; the C
array is 512×512 and unchecked), the log of `(row, column)` indices written,
`dataCount`, and the rest of the input stream. -/
structure RdState where
  data : ℕ → ℕ → Int
  writes : List (ℕ × ℕ)
  dataCount : ℕ
  rest : List Char

/-- Outcome of one cell of the body-reading loop: an error aborts
`TryReadPgmData`; a break leaves the inner column loop (the C `break` on
`feof`); otherwise the loop continues. -/
inductive CellOut where
  | err
  | brk (st : RdState)
  | cont (st : RdState)

/-- One iteration of the inner loop of `TryReadPgmData` at `(row, col)`:
scan a sample (P2: `fscanf("%i")`; P5: `fgetc`; UNKNOWN: no read, the stale
`data` variable holds 0), break on `feof`, then range-check and store. -/
def readCell (typ : PgmType) (mx : Int) (row col : ℕ) (st : RdState) : CellOut :=
  match typ with
  | .P2 =>
      match scanInt st.rest with
      | .matchFail => .err                    -- fscanf returned 0
      | .inputFail => .brk st                 -- fscanf returned EOF; feof breaks
      | .ok v rest hitEof =>
          if hitEof then .brk { st with rest := rest }  -- feof breaks, sample dropped
          else if v > mx ∨ v < 0 then .err
          else .cont { data := fun i j => if i = row ∧ j = col then v else st.data i j,
                       writes := (row, col) :: st.writes,
                       dataCount := st.dataCount + 1,
                       rest := rest }
  | .P5 =>
      match st.rest with
      | [] => .brk st                          -- fgetc returned EOF; feof breaks
      | c :: rest =>
          let v : Int := c.toNat
          if v > mx ∨ v < 0 then .err
          else .cont { data := fun i j => if i = row ∧ j = col then v else st.data i j,
                       writes := (row, col) :: st.writes,
                       dataCount := st.dataCount + 1,
                       rest := rest }
  | .UNKNOWN =>
      -- neither branch reads, but the loop's feof break still fires: the
      -- header's trailing whitespace skip leaves the EOF indicator set
      -- exactly when the stream is exhausted, and an UNKNOWN body never
      -- reads, so indicator and stream stay unchanged through the loop
      if st.rest = [] then .brk st
      else if (0 : Int) > mx then .err
      else .cont { data := fun i j => if i = row ∧ j = col then 0 else st.data i j,
                   writes := (row, col) :: st.writes,
                   dataCount := st.dataCount + 1,
                   rest := st.rest }

/-- The inner (column) loop of `TryReadPgmData`, columns `col`, `col+1`, …
for `n` more iterations; a break ends the row early but the outer loop goes
on. -/
def readRowFrom (typ : PgmType) (mx : Int) (row : ℕ) :
    ℕ → ℕ → RdState → Option RdState
  | _, 0, st => some st
  | col, n + 1, st =>
      match readCell typ mx row col st with
      | .err => none
      | .brk st' => some st'
      | .cont st' => readRowFrom typ mx row (col + 1) n st'

/-- The outer (row) loop of `TryReadPgmData`, rows `row`, `row+1`, … for `n`
more iterations, each scanning `cols` columns. -/
def readRowsFrom (typ : PgmType) (mx : Int) (cols : ℕ) :
    ℕ → ℕ → RdState → Option RdState
  | _, 0, st => some st
  | row, n + 1, st =>
      match readRowFrom typ mx row 0 cols st with
      | none => none
      | some st' => readRowsFrom typ mx cols (row + 1) n st'

/-- `TryReadPgmData`: run the loops from a zero-initialised array, then the
final corruption check — for P5 the stream must be exhausted, and for every
type `dataCount` must equal `width * height`. -/
def TryReadPgmData (info : PgmInfo) (s : List Char) :
    Except PgmError RdState :=
  match readRowsFrom info.type info.maxDataValue info.width.toNat 0
      info.height.toNat ⟨fun _ _ => 0, [], 0, s⟩ with
  | none => .error .corrupted
  | some st =>
      if (info.type = .P5 ∧ st.rest ≠ [])
          ∨ (st.dataCount : Int) ≠ info.width * info.height then
        .error .corrupted
      else .ok st

/-- The decode pipeline used by `TryConvertPgm`: header then body. -/
structure DecodeResult where
  info : PgmInfo
  data : ℕ → ℕ → Int
  writes : List (ℕ × ℕ)
  rest : List Char

/-- Decode = `TryReadPgmInfo` followed by `TryReadPgmData`, as sequenced in
`TryConvertPgm`. -/
def pgmDecode (expected : PgmType) (s : List Char) :
    Except PgmError DecodeResult :=
  match TryReadPgmInfo expected s with
  | .error e => .error e
  | .ok (info, rest) =>
      match TryReadPgmData info rest with
      | .error e => .error e
      | .ok st => .ok ⟨info, st.data, st.writes, st.rest⟩

/-! ## Writing the output: `WritePgmInfo`, `WritePgmData` -/

/-- The character of a decimal digit. -/
def digitChar (d : ℕ) : Char := Char.ofNat (48 + d)

/-- Decimal digits, fuel-recursive so that it reduces structurally; the fuel
is consumed once per division by ten. -/
def natCharsAux : ℕ → ℕ → List Char
  | 0, _ => []
  | fuel + 1, n =>
      if n < 10 then [digitChar n]
      else natCharsAux fuel (n / 10) ++ [digitChar (n % 10)]

/-- Decimal digits of a natural number, as `printf("%i")` renders the
magnitude. -/
def natChars (n : ℕ) : List Char := natCharsAux (n + 1) n

/-- `printf("%i")` of a C int. -/
def intChars (n : Int) : List Char :=
  if n < 0 then '-' :: natChars n.natAbs else natChars n.toNat

/-- `WritePgmInfo`: the four header lines
`"%s\n# Generated by pnmdump.exe\n%i %i\n%i\n"`. -/
def WritePgmInfo (oF : PgmInfo) : List Char :=
  PgmTypeToStr oF.type ++ '\n' :: ("# Generated by pnmdump.exe".toList)
    ++ '\n' :: intChars oF.width ++ ' ' :: intChars oF.height
    ++ '\n' :: intChars oF.maxDataValue ++ ['\n']

/-- One cell of `WritePgmData`: for P2 the first column is written bare, the
last column gets a leading space and a trailing newline, other columns get a
leading space; for P5 one raw byte (`fprintf("%c")` converts the int to an
unsigned char, i.e. reduces it modulo 256). -/
def writeCell (oF : PgmInfo) (getData : ℕ → ℕ → Int) (row col : ℕ) : List Char :=
  if oF.type = .P2 then
    if col = 0 then intChars (getData row col)
    else if (col : Int) = oF.width - 1 then ' ' :: intChars (getData row col) ++ ['\n']
    else ' ' :: intChars (getData row col)
  else if oF.type = .P5 then
    [Char.ofNat ((getData row col).emod 256).toNat]
  else []

/-- `WritePgmData`: row-major loop over the output dimensions. -/
def WritePgmData (oF : PgmInfo) (getData : ℕ → ℕ → Int) : List Char :=
  ((List.range oF.height.toNat).map (fun row =>
    ((List.range oF.width.toNat).map (fun col =>
      writeCell oF getData row col)).flatten)).flatten

/-- `GetData`: the identity pixel retrieval. -/
def GetData (data : ℕ → ℕ → Int) (row col : ℕ) : Int := data row col

/-- Decode, re-encode with the identity transform and the same descriptor,
decode again (the composition named by the round-trip property). -/
def decodeEncodeDecode (expected : PgmType) (s : List Char) :
    Except PgmError DecodeResult :=
  match pgmDecode expected s with
  | .error e => .error e
  | .ok r =>
      pgmDecode expected (WritePgmInfo r.info ++ WritePgmData r.info (GetData r.data))

/-! ## Scale parsing and output descriptor: `TryParseScalar`, `TrySetPgmInfo` -/

/-- C truncation of a real value to an int (toward zero), used for
`(int)` casts and `int = double` assignments. -/
def truncQ (q : ℚ) : Int := if 0 ≤ q then ⌊q⌋ else ⌈q⌉

/-- The pixel-retrieval function installed in `ConversionArgs.getData`
(a function pointer in C; `null` is the `NULL` set up for `--scaleBl`). -/
inductive GetDataSel where
  | null
  | plain
  | reflected
  | rot90
  | scaleNn
  | scaleUpBl
  | scaleDownBox
deriving DecidableEq, Repr

/-- Result of `TryParseScalar`: the fields of `ScaleArgs` it assigns plus the
possibly re-selected `getData`. -/
structure ScaleRes where
  isEnlarge : Bool
  wScale : ℚ
  hScale : ℚ
  getDataSel : GetDataSel
deriving DecidableEq, Repr

/-- Pattern `"%lf%n"` with the whole string consumed. -/
def scanScale1 (s : List Char) : Option (ℚ × ℚ) :=
  match parseDouble s with
  | some (x, []) => some (x, x)
  | _ => none

/-- Pattern `"%lf/%lf%n"` with the whole string consumed. -/
def scanScale2 (s : List Char) : Option (ℚ × ℚ) :=
  match parseDouble s with
  | some (x, '/' :: r) =>
      match parseDouble r with
      | some (y, []) => some (x / y, x / y)
      | _ => none
  | _ => none

/-- Pattern `"%lfx%lf%n"` with the whole string consumed. -/
def scanScale3 (s : List Char) : Option (ℚ × ℚ) :=
  match parseDouble s with
  | some (x, 'x' :: r) =>
      match parseDouble r with
      | some (y, []) => some (x, y)
      | _ => none
  | _ => none

/-- Pattern `"%lf/%lfx%lf/%lf%n"` with the whole string consumed. -/
def scanScale4 (s : List Char) : Option (ℚ × ℚ) :=
  match parseDouble s with
  | some (x, '/' :: r1) =>
      match parseDouble r1 with
      | some (y, 'x' :: r2) =>
          match parseDouble r2 with
          | some (a, '/' :: r3) =>
              match parseDouble r3 with
              | some (b, []) => some (x / y, a / b)
              | _ => none
          | _ => none
      | _ => none
  | _ => none

/-- The four accepted grammars of `TryParseScalar`, tried in order; the
result is `(wScale, hScale)`. -/
def scanScaleFactors (s : List Char) : Option (ℚ × ℚ) :=
  match scanScale1 s with
  | some p => some p
  | none =>
      match scanScale2 s with
      | some p => some p
      | none =>
          match scanScale3 s with
          | some p => some p
          | none => scanScale4 s

/-- `TryParseScalar`: record the `'m'` hint, match the four grammars in
order, re-select `getData` for the bilinear family, then check direction
consistency and positivity.  `sel0` is the `getData` installed by `main`. -/
def TryParseScalar (ty : ScaleType) (sel0 : GetDataSel) (scale : List Char) :
    Except PgmError ScaleRes :=
  let isEnlarge := !(scale.headD (Char.ofNat 0) == 'm')
  match scanScaleFactors scale with
  | none => .error .badScalarFormat
  | some (w, h) =>
      let sel := if ty = .BILINEAR then
          if w ≥ 1 ∧ h ≥ 1 then .scaleUpBl
          else if w ≤ 1 ∧ h ≤ 1 then .scaleDownBox
          else sel0
        else sel0
      if (w < 1 ∧ h > 1) ∨ (w > 1 ∧ h < 1) then .error .inconsistentDirection
      else if w ≤ 0 ∨ h ≤ 0 then .error .nonPositiveScale
      else .ok ⟨isEnlarge, w, h, sel⟩

/-- `TrySetPgmInfo`: adopt the input type if the output type is unknown,
swap dimensions if required, copy the max value; when scaling, parse the
scale text, multiply the dimensions (`int = int * double` truncates) and
enforce the 1920×1080 output cap. -/
def TrySetPgmInfo (iF : PgmInfo) (oType : PgmType) (isSwap isScale : Bool)
    (ty : ScaleType) (sel0 : GetDataSel) (scaleText : List Char) :
    Except PgmError (PgmInfo × Option ScaleRes) :=
  let oT := if oType = .UNKNOWN then iF.type else oType
  let w0 := if isSwap then iF.height else iF.width
  let h0 := if isSwap then iF.width else iF.height
  if isScale then
    match TryParseScalar ty sel0 scaleText with
    | .error e => .error e
    | .ok sr =>
        let h1 := truncQ ((h0 : ℚ) * sr.hScale)
        let w1 := truncQ ((w0 : ℚ) * sr.wScale)
        if w1 > 1920 ∨ h1 > 1080 then .error .outputTooLarge
        else .ok (⟨oT, w1, h1, iF.maxDataValue⟩, some sr)
  else .ok (⟨oT, w0, h0, iF.maxDataValue⟩, none)

/-! ## `GetScaledDownBoxData` -/

/-- Number of iterations of a C loop `for (i = 0; i < q; i++)` whose bound is
a real value: the number of naturals strictly below `q`
(see `boxIters_lt_iff` below). -/
def boxIters (q : ℚ) : ℕ := (⌈q⌉).toNat

/-- `GetScaledDownBoxData`: sum `data[(int)(row/hScale + rs)][(int)(col/wScale + cs)]`
over the loop ranges `rs < 1/hScale`, `cs < 1/wScale`, count the samples,
and return the truncated integer average. -/
def GetScaledDownBoxData (data : ℕ → ℕ → Int) (hS wS : ℚ) (row col : ℕ) : Int :=
  let rsN := boxIters (1 / hS)
  let csN := boxIters (1 / wS)
  let total := ((List.range rsN).map (fun (rs : ℕ) =>
      ((List.range csN).map (fun (cs : ℕ) =>
        data (truncQ ((row : ℚ) / hS + (rs : ℚ))).toNat
             (truncQ ((col : ℚ) / wS + (cs : ℚ))).toNat)).sum)).sum
  Int.tdiv total (rsN * csN : ℕ)

/-- Modelled from the spec claim, not from the source: the output cell is the
integer-truncated average of a block of exactly `⌊1/hScale⌋ × ⌊1/wScale⌋`
source samples whose top-left corner is `(⌊row/hScale⌋, ⌊col/wScale⌋)`. -/
def specBoxDownValue (data : ℕ → ℕ → Int) (hS wS : ℚ) (row col : ℕ) : Int :=
  let rsN := (⌊(1 : ℚ) / hS⌋).toNat
  let csN := (⌊(1 : ℚ) / wS⌋).toNat
  let r0 := (⌊(row : ℚ) / hS⌋).toNat
  let c0 := (⌊(col : ℚ) / wS⌋).toNat
  Int.tdiv (((List.range rsN).map (fun rs =>
    ((List.range csN).map (fun cs => data (r0 + rs) (c0 + cs))).sum)).sum)
    (rsN * csN : ℕ)

/-! ## Result accessors and concrete inputs used in the theorems -/

/-- Header of a decode result (a default descriptor on error). -/
def decInfo (x : Except PgmError DecodeResult) : PgmInfo :=
  match x with
  | .ok r => r.info
  | .error _ => ⟨.UNKNOWN, 0, 0, 0⟩

/-- Sample grid of a decode result (the zero grid on error). -/
def decData (x : Except PgmError DecodeResult) : ℕ → ℕ → Int :=
  match x with
  | .ok r => r.data
  | .error _ => fun _ _ => 0

/-- Write log of a decode result. -/
def decWrites (x : Except PgmError DecodeResult) : List (ℕ × ℕ) :=
  match x with
  | .ok r => r.writes
  | .error _ => []

/-- A P5 input whose header declares width 513 (beyond the 512-column
capacity of `data[512][512]`), with 513 body bytes of value 7. -/
def c1input : List Char :=
  "P5\nc\n513 1\n255\n".toList ++ List.replicate 513 (Char.ofNat 7)

/-- A well-formed width-1 ASCII input: two rows, samples 5 and 7. -/
def c2input : List Char := "P2\nc\n1 2\n255\n5\n7\n".toList

/-- An input whose magic `P9` is neither `P2` nor `P5`, with a byte left
after the header so that the header scan's trailing whitespace skip stops at
a character instead of end of file (leaving the EOF indicator clear). -/
def c3input : List Char := "P9\nc\n1 1\n255\nX".toList

/-- A 4×4 grid of pairwise distinct sample values `10*(4r+c)+1`. -/
def exData4 : ℕ → ℕ → Int := fun r c => 10 * (4 * r + c) + 1

/-- The characters an ASCII body cell at column ≥ 1 contributes: a space and
the decimal rendering of the sample. -/
def renderCells (vs : List Int) : List Char :=
  (vs.map (fun v => ' ' :: intChars v)).flatten

/-- The characters a P2 body row of width ≥ 2 contributes: the bare first
sample, the space-prefixed remaining samples, and the terminating newline. -/
def renderRow (vs : List Int) : List Char :=
  match vs with
  | [] => []
  | v :: vt => intChars v ++ renderCells vt ++ ['\n']

/-! ## Theorems -/

set_option maxRecDepth 8000 in
/-- C1: the header of `c1input` declares width 513 > 512, yet decoding
succeeds — no `OutOfBounds` rejection exists — and the body loop stores a
sample at column index 512, beyond the 512×512 backing array. -/
theorem c1_decode_stores_beyond_capacity :
    (pgmDecode .P5 c1input).isOk = true
      ∧ (0, 512) ∈ decWrites (pgmDecode .P5 c1input)
      ∧ (decInfo (pgmDecode .P5 c1input)).width = 513 := by
  refine ⟨by decide, by decide, by decide⟩

/-- C3 (counterexample): with no expected encoding supplied, the magic `P9`
— which maps to no encoding — still yields a successful decode when a byte
remains after the header (the EOF indicator is then clear, so the body loop
stores zeros without reading instead of breaking). -/
theorem c3_unknown_magic_decodes :
    StrToPgmType ['P', '9'] = .UNKNOWN
      ∧ (pgmDecode .UNKNOWN c3input).isOk = true := by
  exact ⟨by decide, by decide⟩

/-- C8: the scale parser maps `"2"` to factors (2, 2), `"1/2"` to
(1/2, 1/2), `"3x4"` to (3, 4), `"1/2x3/4"` to (1/2, 3/4), and rejects
`"2xhalf"` with the bad-scalar-format parse error. -/
theorem c8_scale_parser_vectors :
    TryParseScalar .NEAREST_NEIGHBOR .scaleNn "2".toList
        = .ok ⟨true, 2, 2, .scaleNn⟩
      ∧ TryParseScalar .NEAREST_NEIGHBOR .scaleNn "1/2".toList
        = .ok ⟨true, 1/2, 1/2, .scaleNn⟩
      ∧ TryParseScalar .NEAREST_NEIGHBOR .scaleNn "3x4".toList
        = .ok ⟨true, 3, 4, .scaleNn⟩
      ∧ TryParseScalar .NEAREST_NEIGHBOR .scaleNn "1/2x3/4".toList
        = .ok ⟨true, 1/2, 3/4, .scaleNn⟩
      ∧ TryParseScalar .NEAREST_NEIGHBOR .scaleNn "2xhalf".toList
        = .error .badScalarFormat := by
  refine ⟨?_, ?_, ?_, ?_, ?_⟩
  · rw [show "2".toList = ['2'] from by decide]
    simp +decide [TryParseScalar, scanScaleFactors, scanScale1, scanScale2, scanScale3,
      scanScale4, parseDouble, scanMantissa, scanExp, skipWs, fracVal, pow10, zpow10,
      digitsVal, digVal, List.span_eq_take_drop, isWs]
  · rw [show "1/2".toList = ['1', '/', '2'] from by decide]
    simp +decide [TryParseScalar, scanScaleFactors, scanScale1, scanScale2, scanScale3,
      scanScale4, parseDouble, scanMantissa, scanExp, skipWs, fracVal, pow10, zpow10,
      digitsVal, digVal, List.span_eq_take_drop, isWs]
    norm_num
  · rw [show "3x4".toList = ['3', 'x', '4'] from by decide]
    simp +decide [TryParseScalar, scanScaleFactors, scanScale1, scanScale2, scanScale3,
      scanScale4, parseDouble, scanMantissa, scanExp, skipWs, fracVal, pow10, zpow10,
      digitsVal, digVal, List.span_eq_take_drop, isWs]
  · rw [show "1/2x3/4".toList = ['1', '/', '2', 'x', '3', '/', '4'] from by decide]
    simp +decide [TryParseScalar, scanScaleFactors, scanScale1, scanScale2, scanScale3,
      scanScale4, parseDouble, scanMantissa, scanExp, skipWs, fracVal, pow10, zpow10,
      digitsVal, digVal, List.span_eq_take_drop, isWs]
    norm_num
  · rw [show "2xhalf".toList = ['2', 'x', 'h', 'a', 'l', 'f'] from by decide]
    simp +decide [TryParseScalar, scanScaleFactors, scanScale1, scanScale2, scanScale3,
      scanScale4, parseDouble, scanMantissa, scanExp, skipWs, fracVal, pow10, zpow10,
      digitsVal, digVal, List.span_eq_take_drop, isWs]

/-- A `%lf` conversion fails on a string whose first character is `'m'`. -/
theorem parseDouble_m_cons (rest : List Char) :
    parseDouble ('m' :: rest) = none := by
  have h1 : skipWs ('m' :: rest) = 'm' :: rest := by
    simp [skipWs, List.dropWhile_cons, isWs]
  have hsp : List.span Char.isDigit ('m' :: rest) = ([], 'm' :: rest) := by
    simp [List.span_eq_take_drop, List.takeWhile_cons, List.dropWhile_cons]
  have h2 : scanMantissa ('m' :: rest) = none := by
    simp [scanMantissa, hsp]
  simp [parseDouble, h1, h2]

/-- C10: every scale text beginning with `'m'` fails all four grammars and
is rejected with the bad-scalar-format parse error, so the recorded
enlarge/shrink hint never accompanies a successful parse. -/
theorem c10_leading_m_always_fails (ty : ScaleType) (sel : GetDataSel)
    (rest : List Char) :
    TryParseScalar ty sel ('m' :: rest) = .error .badScalarFormat := by
  simp [TryParseScalar, scanScaleFactors, scanScale1, scanScale2, scanScale3,
    scanScale4, parseDouble_m_cons]

/-- C5: at width 1 the first-column branch of `WritePgmData` wins over the
last-column branch, so the ASCII body of a 1×2 raster with samples 5 and 7
is written as the two bytes `"57"` — no newline terminates either row and
no separator stands between the rows' samples. -/
theorem c5_width1_rows_lack_newline :
    WritePgmData ⟨.P2, 1, 2, 255⟩ (fun r _ => if r = 0 then 5 else 7)
        = ['5', '7']
      ∧ '\n' ∉ WritePgmData ⟨.P2, 1, 2, 255⟩ (fun r _ => if r = 0 then 5 else 7) := by
  refine ⟨by decide, by decide⟩

/-- C6 (counterexample): input width 3 with width factor 640.25 has real
product 1920.75, which exceeds 1920; but the code compares the truncated
product 1920, so `TrySetPgmInfo` accepts the scale instead of failing with
the output-too-large range error. -/
theorem c6_real_product_exceeds_but_accepted :
    TrySetPgmInfo ⟨.P2, 3, 1, 255⟩ .UNKNOWN false true .NEAREST_NEIGHBOR
        .scaleNn "640.25".toList
      = .ok (⟨.P2, 1920, 640, 255⟩, some ⟨true, 2561/4, 2561/4, .scaleNn⟩)
      ∧ (3 : ℚ) * (2561/4) > 1920 := by
  have hp : TryParseScalar .NEAREST_NEIGHBOR .scaleNn "640.25".toList
      = .ok ⟨true, 2561/4, 2561/4, .scaleNn⟩ := by
    rw [show "640.25".toList = ['6', '4', '0', '.', '2', '5'] from by decide]
    simp +decide [TryParseScalar, scanScaleFactors, scanScale1, scanScale2, scanScale3,
      scanScale4, parseDouble, scanMantissa, scanExp, skipWs, fracVal, pow10, zpow10,
      digitsVal, digVal, List.span_eq_take_drop, isWs]
    norm_num
  have hw : truncQ ((7683 : ℚ) / 4) = 1920 := by
    rw [truncQ, if_pos (by norm_num)]
    norm_num [Int.floor_eq_iff]
  have hh : truncQ ((2561 : ℚ) / 4) = 640 := by
    rw [truncQ, if_pos (by norm_num)]
    norm_num [Int.floor_eq_iff]
  refine ⟨?_, by norm_num⟩
  simp only [TrySetPgmInfo, hp]
  norm_num [hw, hh]

/-- C6 (amended): for a scale conversion, the run fails with the
output-too-large range error exactly when a truncated scaled dimension
`(int)(inputDim * factor)` exceeds the 1920×1080 cap; otherwise the output
dimensions are the truncated scaled input dimensions. -/
theorem c6_truncated_output_cap (iF : PgmInfo) (oT : PgmType)
    (ty : ScaleType) (sel : GetDataSel) (text : List Char) (sr : ScaleRes)
    (hp : TryParseScalar ty sel text = .ok sr) :
    TrySetPgmInfo iF oT false true ty sel text =
      if truncQ ((iF.width : ℚ) * sr.wScale) > 1920
          ∨ truncQ ((iF.height : ℚ) * sr.hScale) > 1080 then
        .error .outputTooLarge
      else
        .ok (⟨if oT = .UNKNOWN then iF.type else oT,
              truncQ ((iF.width : ℚ) * sr.wScale),
              truncQ ((iF.height : ℚ) * sr.hScale),
              iF.maxDataValue⟩, some sr) := by
  simp [TrySetPgmInfo, hp]

/-- Witness for `c6_truncated_output_cap` at a concrete accepted scale. -/
theorem c6_truncated_output_cap_witness :
    TrySetPgmInfo ⟨.P2, 4, 4, 255⟩ .UNKNOWN false true .NEAREST_NEIGHBOR
        .scaleNn "2".toList =
      if truncQ ((4 : ℚ) * 2) > 1920 ∨ truncQ ((4 : ℚ) * 2) > 1080 then
        .error .outputTooLarge
      else
        .ok (⟨.P2, truncQ ((4 : ℚ) * 2), truncQ ((4 : ℚ) * 2), 255⟩,
             some ⟨true, 2, 2, .scaleNn⟩) :=
  c6_truncated_output_cap ⟨.P2, 4, 4, 255⟩ .UNKNOWN .NEAREST_NEIGHBOR
    .scaleNn "2".toList ⟨true, 2, 2, .scaleNn⟩ (by
      rw [show "2".toList = ['2'] from by decide]
      simp +decide [TryParseScalar, scanScaleFactors, scanScale1, scanScale2, scanScale3,
        scanScale4, parseDouble, scanMantissa, scanExp, skipWs, fracVal, pow10, zpow10,
        digitsVal, digVal, List.span_eq_take_drop, isWs])

/-- C3 (amended): when the caller supplied an expected encoding
(`expected ≠ UNKNOWN`) and the parsed magic maps to a different encoding,
decode fails with the wrong-format error.  (When no expected encoding is
supplied, an unrecognized magic leaves the type `UNKNOWN` and the header
stage does not fail — see the counterexample.) -/
theorem c3_expected_encoding_mismatch_fails (expected : PgmType)
    (s tok : List Char) (w ht mx : Int) (rest : List Char)
    (hraw : rawReadPgmInfo s = some (tok, w, ht, mx, rest))
    (hexp : expected ≠ .UNKNOWN) (hne : StrToPgmType tok ≠ expected) :
    pgmDecode expected s = .error .wrongFormat := by
  have hcond : ¬(expected = PgmType.UNKNOWN ∧ StrToPgmType tok ≠ PgmType.UNKNOWN) := by
    intro h
    exact hexp h.1
  simp only [pgmDecode, TryReadPgmInfo, hraw, if_neg hcond, if_pos (Ne.symm hne)]

/-- Witness for `c3_expected_encoding_mismatch_fails`: a P5-magic input
decoded with expected encoding P2. -/
theorem c3_expected_encoding_mismatch_fails_witness :
    rawReadPgmInfo "P5\nc\n1 1\n255\n".toList
        = some (['P', '5'], 1, 1, 255, [])
      ∧ pgmDecode .P2 "P5\nc\n1 1\n255\n".toList = .error .wrongFormat :=
  ⟨by decide,
   c3_expected_encoding_mismatch_fails .P2 "P5\nc\n1 1\n255\n".toList
     ['P', '5'] 1 1 255 [] (by decide) (by decide) (by decide)⟩

/-- A C loop `for (i = 0; i < q; i++)` over a real bound `q` runs exactly
`boxIters q` iterations: the naturals below `boxIters q` are precisely those
whose cast is strictly below `q`. -/
theorem boxIters_lt_iff (q : ℚ) (n : ℕ) : n < boxIters q ↔ (n : ℚ) < q := by
  rw [boxIters, Int.lt_toNat, Int.lt_ceil]
  push_cast
  rfl

set_option maxRecDepth 2000 in
/-- C4 (counterexample): with both factors 3/4 (≤ 1), the box filter output
at cell (0,0) of the distinct-valued 4×4 grid differs from the value the
claim prescribes (a `⌊1/scale⌋`-sized block): the loops run `⌈1/scale⌉ = 2`
iterations per axis, averaging a 2×2 block (result 26), while the claimed
⌊4/3⌋ = 1 sized block gives 1. -/
theorem c4_floor_block_refuted :
    GetScaledDownBoxData exData4 (3/4) (3/4) 0 0 = 26
      ∧ specBoxDownValue exData4 (3/4) (3/4) 0 0 = 1
      ∧ GetScaledDownBoxData exData4 (3/4) (3/4) 0 0
          ≠ specBoxDownValue exData4 (3/4) (3/4) 0 0 := by
  refine ⟨by with_unfolding_all decide, by with_unfolding_all decide,
    by with_unfolding_all decide⟩

/-- C4 (amended): for both factors in (0, 1], the box-downscale output cell
`(r, c)` is the truncated integer average of a block of exactly
`⌈1/hScale⌉ × ⌈1/wScale⌉` source samples whose top-left corner is
`(⌊r/hScale⌋, ⌊c/wScale⌋)`. -/
theorem c4_box_average_ceil_block (data : ℕ → ℕ → Int) (hS wS : ℚ)
    (hh0 : 0 < hS) (_hh1 : hS ≤ 1) (hw0 : 0 < wS) (_hw1 : wS ≤ 1) (row col : ℕ) :
    GetScaledDownBoxData data hS wS row col =
      Int.tdiv
        (((List.range (⌈1/hS⌉).toNat).map (fun rs =>
          ((List.range (⌈1/wS⌉).toNat).map (fun cs =>
            data ((⌊(row : ℚ) / hS⌋).toNat + rs)
                 ((⌊(col : ℚ) / wS⌋).toNat + cs))).sum)).sum)
        ((⌈1/hS⌉).toNat * (⌈1/wS⌉).toNat) := by
  have hidx : ∀ (n : ℕ) (q : ℚ), 0 < q →
      ∀ k : ℕ, (truncQ ((n : ℚ) / q + k)).toNat = (⌊(n : ℚ) / q⌋).toNat + k := by
    intro n q hq k
    have hx : (0 : ℚ) ≤ (n : ℚ) / q := div_nonneg (Nat.cast_nonneg n) hq.le
    rw [truncQ, if_pos (add_nonneg hx (Nat.cast_nonneg k)), Int.floor_add_nat,
      Int.toNat_add (Int.floor_nonneg.mpr hx) (Int.natCast_nonneg k)]
    simp
  simp only [GetScaledDownBoxData, boxIters]
  congr 1
  apply congrArg List.sum
  apply List.map_congr_left
  intro rs _
  apply congrArg List.sum
  apply List.map_congr_left
  intro cs _
  rw [hidx row hS hh0 rs, hidx col wS hw0 cs]

/-- Witness for `c4_box_average_ceil_block` at factor 1/2 on the 4×4 grid. -/
theorem c4_box_average_ceil_block_witness :
    (0 : ℚ) < 1/2 ∧ (1/2 : ℚ) ≤ 1
      ∧ GetScaledDownBoxData exData4 (1/2) (1/2) 1 1 =
        Int.tdiv
          (((List.range (⌈1/(1/2 : ℚ)⌉).toNat).map (fun rs =>
            ((List.range (⌈1/(1/2 : ℚ)⌉).toNat).map (fun cs =>
              exData4 ((⌊(1 : ℚ) / (1/2)⌋).toNat + rs)
                      ((⌊(1 : ℚ) / (1/2)⌋).toNat + cs))).sum)).sum)
          ((⌈1/(1/2 : ℚ)⌉).toNat * (⌈1/(1/2 : ℚ)⌉).toNat) :=
  ⟨by norm_num, by norm_num,
   c4_box_average_ceil_block exData4 (1/2) (1/2) (by norm_num) (by norm_num)
     (by norm_num) (by norm_num) 1 1⟩

/-! ## Invariants of the body-reading loop -/

/-- A continuing cell increments `dataCount`, stores an in-range value at
`(row, col)` and leaves every other cell untouched. -/
theorem readCell_cont (typ : PgmType) (mx : Int) (row col : ℕ) (st st' : RdState)
    (h : readCell typ mx row col st = .cont st') :
    st'.dataCount = st.dataCount + 1
      ∧ (0 ≤ st'.data row col ∧ st'.data row col ≤ mx)
      ∧ (∀ i j, ¬(i = row ∧ j = col) → st'.data i j = st.data i j) := by
  cases typ
  case UNKNOWN =>
    simp only [readCell] at h
    split at h
    · simp at h
    · split at h
      · simp at h
      · rename_i hmx
        cases h
        refine ⟨rfl, ⟨by simp, by simpa using le_of_not_lt hmx⟩, ?_⟩
        intro i j hij
        simp [hij]
  case P2 =>
    simp only [readCell] at h
    split at h
    · simp at h
    · simp at h
    · rename_i v rest hitEof heq
      split at h
      · simp at h
      · split at h
        · simp at h
        · rename_i hEof hrange
          push_neg at hrange
          cases h
          refine ⟨rfl, ⟨by simpa using hrange.2, by simpa using hrange.1⟩, ?_⟩
          intro i j hij
          simp [hij]
  case P5 =>
    simp only [readCell] at h
    split at h
    · simp at h
    · rename_i c rest heq
      split at h
      · simp at h
      · rename_i hrange
        push_neg at hrange
        cases h
        refine ⟨rfl, ⟨by simp, by simpa using hrange.1⟩, ?_⟩
        intro i j hij
        simp [hij]

/-- A breaking cell leaves `dataCount` and the data array unchanged. -/
theorem readCell_brk (typ : PgmType) (mx : Int) (row col : ℕ) (st st' : RdState)
    (h : readCell typ mx row col st = .brk st') :
    st'.dataCount = st.dataCount ∧ st'.data = st.data := by
  cases typ
  case UNKNOWN =>
    simp only [readCell] at h
    split at h
    · cases h
      exact ⟨rfl, rfl⟩
    · split at h <;> simp at h
  case P2 =>
    simp only [readCell] at h
    split at h
    · simp at h
    · cases h
      exact ⟨rfl, rfl⟩
    · split at h
      · cases h
        exact ⟨rfl, rfl⟩
      · split at h <;> simp at h
  case P5 =>
    simp only [readCell] at h
    split at h
    · cases h
      exact ⟨rfl, rfl⟩
    · split at h <;> simp at h

/-- Row-loop invariant: the count grows by at most the number of cells; when
it grows by exactly that number, every cell of the row segment holds an
in-range value; cells outside the segment are untouched. -/
theorem readRowFrom_facts (typ : PgmType) (mx : Int) (row : ℕ) :
    ∀ (n col : ℕ) (st st' : RdState),
      readRowFrom typ mx row col n st = some st' →
      st'.dataCount ≤ st.dataCount + n
        ∧ (st'.dataCount = st.dataCount + n →
            ∀ j, col ≤ j → j < col + n → 0 ≤ st'.data row j ∧ st'.data row j ≤ mx)
        ∧ (∀ i j, i ≠ row ∨ j < col ∨ col + n ≤ j → st'.data i j = st.data i j) := by
  intro n
  induction n with
  | zero =>
      intro col st st' h
      cases h
      exact ⟨Nat.le_refl _, fun _ j h1 h2 => absurd (h1.trans_lt h2) (by omega),
        fun i j _ => rfl⟩
  | succ n ih =>
      intro col st st' h
      rw [readRowFrom] at h
      cases hc : readCell typ mx row col st
      case err => rw [hc] at h; simp at h
      case brk st1 =>
        rw [hc] at h
        simp only [Option.some.injEq] at h
        subst h
        obtain ⟨hcnt, hdata⟩ := readCell_brk typ mx row col st st1 hc
        exact ⟨by omega, fun heq => absurd heq (by omega), fun i j _ => by rw [hdata]⟩
      case cont st1 =>
        rw [hc] at h
        simp only at h
        obtain ⟨hcnt, hrange, hpres⟩ := readCell_cont typ mx row col st st1 hc
        obtain ⟨ih1, ih2, ih3⟩ := ih (col + 1) st1 st' h
        refine ⟨by omega, ?_, ?_⟩
        · intro heq j h1 h2
          have hfull : st'.dataCount = st1.dataCount + n := by omega
          rcases Nat.lt_or_ge j (col + 1) with hj | hj
          · have hj' : j = col := by omega
            subst hj'
            have : st'.data row j = st1.data row j :=
              ih3 row j (Or.inr (Or.inl (by omega)))
            rw [this]
            exact hrange
          · exact ih2 hfull j hj (by omega)
        · intro i j hout
          have h1 : st'.data i j = st1.data i j := by
            apply ih3
            rcases hout with h' | h' | h'
            · exact Or.inl h'
            · exact Or.inr (Or.inl (by omega))
            · exact Or.inr (Or.inr (by omega))
          rw [h1]
          apply hpres
          rintro ⟨rfl, rfl⟩
          rcases hout with h' | h' | h' <;> omega

/-- Rows-loop invariant, lifted from `readRowFrom_facts`. -/
theorem readRowsFrom_facts (typ : PgmType) (mx : Int) (cols : ℕ) :
    ∀ (n row : ℕ) (st st' : RdState),
      readRowsFrom typ mx cols row n st = some st' →
      st'.dataCount ≤ st.dataCount + n * cols
        ∧ (st'.dataCount = st.dataCount + n * cols →
            ∀ i j, row ≤ i → i < row + n → j < cols →
              0 ≤ st'.data i j ∧ st'.data i j ≤ mx)
        ∧ (∀ i j, i < row ∨ row + n ≤ i → st'.data i j = st.data i j) := by
  intro n
  induction n with
  | zero =>
      intro row st st' h
      cases h
      exact ⟨by omega, fun _ i j h1 h2 _ => absurd (h1.trans_lt h2) (by omega),
        fun i j _ => rfl⟩
  | succ n ih =>
      intro row st st' h
      rw [readRowsFrom] at h
      cases hr : readRowFrom typ mx row 0 cols st
      case none => rw [hr] at h; simp at h
      case some st1 =>
        rw [hr] at h
        simp only at h
        obtain ⟨hr1, hr2, hr3⟩ := readRowFrom_facts typ mx row cols 0 st st1 hr
        obtain ⟨ih1, ih2, ih3⟩ := ih (row + 1) st1 st' h
        refine ⟨by nlinarith [ih1, hr1], ?_, ?_⟩
        · intro heq i j h1 h2 h3
          have hfull1 : st1.dataCount = st.dataCount + cols := by nlinarith [ih1, hr1]
          have hfull2 : st'.dataCount = st1.dataCount + n * cols := by
            have : (n + 1) * cols = cols + n * cols := by ring
            omega
          rcases Nat.lt_or_ge i (row + 1) with hi | hi
          · have hi' : i = row := by omega
            subst hi'
            have : st'.data i j = st1.data i j := ih3 i j (Or.inl (by omega))
            rw [this]
            exact hr2 hfull1 j (Nat.zero_le j) (by omega)
          · exact ih2 hfull2 i j hi (by omega) h3
        · intro i j hout
          have h1 : st'.data i j = st1.data i j := by
            apply ih3
            rcases hout with h' | h'
            · exact Or.inl (by omega)
            · exact Or.inr (by omega)
          rw [h1]
          apply hr3
          left
          rcases hout with h' | h' <;> omega

/-- Structure of a successful `TryReadPgmData`: the loop ran to a state whose
count matches the declared dimensions, and for P5 the stream is exhausted. -/
theorem TryReadPgmData_ok (info : PgmInfo) (s : List Char) (st : RdState)
    (h : TryReadPgmData info s = .ok st) :
    readRowsFrom info.type info.maxDataValue info.width.toNat 0
        info.height.toNat ⟨fun _ _ => 0, [], 0, s⟩ = some st
      ∧ (st.dataCount : Int) = info.width * info.height
      ∧ (info.type = .P5 → st.rest = []) := by
  rw [TryReadPgmData] at h
  cases hr : readRowsFrom info.type info.maxDataValue info.width.toNat 0
      info.height.toNat ⟨fun _ _ => 0, [], 0, s⟩
  case none => rw [hr] at h; simp at h
  case some st1 =>
    rw [hr] at h
    simp only at h
    split at h
    · simp at h
    · rename_i hcond
      push_neg at hcond
      obtain rfl : st1 = st := by simpa using h
      exact ⟨rfl, hcond.2, hcond.1⟩

/-- A decode with `isOk` returns some result. -/
theorem pgmDecode_isOk_exists (expected : PgmType) (s : List Char)
    (h : (pgmDecode expected s).isOk = true) :
    ∃ r, pgmDecode expected s = .ok r := by
  cases hd : pgmDecode expected s
  case error => rw [hd] at h; simp [Except.isOk, Except.toBool] at h
  case ok r => exact ⟨r, rfl⟩

/-- Inversion of a successful decode into its header and body stages. -/
theorem pgmDecode_eq_ok (expected : PgmType) (s : List Char) (r : DecodeResult)
    (h : pgmDecode expected s = .ok r) :
    ∃ info rest st, TryReadPgmInfo expected s = .ok (info, rest)
      ∧ TryReadPgmData info rest = .ok st
      ∧ r = ⟨info, st.data, st.writes, st.rest⟩ := by
  rw [pgmDecode] at h
  cases hinfo : TryReadPgmInfo expected s
  case error => rw [hinfo] at h; simp at h
  case ok p =>
    obtain ⟨info, rest⟩ := p
    rw [hinfo] at h
    simp only at h
    cases hdata : TryReadPgmData info rest
    case error => rw [hdata] at h; simp at h
    case ok st =>
      rw [hdata] at h
      simp only at h
      obtain rfl :
          ({ info := info, data := st.data, writes := st.writes,
             rest := st.rest } : DecodeResult) = r := by
        simpa using h
      exact ⟨info, rest, st, rfl, hdata, rfl⟩

/-- C7: every sample of a successfully decoded raster lies in
`[0, maxValue]`: in-range violations abort the decode, so a decode that
returns a raster stores only checked values at its `height × width` cells. -/
theorem c7_decoded_samples_in_range (expected : PgmType) (s : List Char)
    (h : (pgmDecode expected s).isOk = true) :
    ∀ i j, i < (decInfo (pgmDecode expected s)).height.toNat →
      j < (decInfo (pgmDecode expected s)).width.toNat →
      0 ≤ decData (pgmDecode expected s) i j
        ∧ decData (pgmDecode expected s) i j
            ≤ (decInfo (pgmDecode expected s)).maxDataValue := by
  intro i j hi hj
  obtain ⟨r, hr⟩ := pgmDecode_isOk_exists expected s h
  obtain ⟨info, rest, st, hinfo, hdata, rfl⟩ := pgmDecode_eq_ok expected s r hr
  rw [hr] at hi hj ⊢
  simp only [decInfo, decData] at hi hj ⊢
  obtain ⟨hrows, hcount, _⟩ := TryReadPgmData_ok info rest st hdata
  obtain ⟨hle, hfull, _⟩ := readRowsFrom_facts info.type info.maxDataValue
    info.width.toNat info.height.toNat 0 _ st hrows
  have hw1 : 1 ≤ info.width := by
    by_contra hw
    push_neg at hw
    have : info.width.toNat = 0 := by omega
    omega
  have hh1 : 1 ≤ info.height := by
    by_contra hh
    push_neg at hh
    have : info.height.toNat = 0 := by omega
    omega
  have hcast : (st.dataCount : Int) = (info.height.toNat * info.width.toNat : ℕ) := by
    rw [hcount]
    push_cast
    rw [Int.toNat_of_nonneg (by omega), Int.toNat_of_nonneg (by omega)]
    ring
  have hcnt : st.dataCount = info.height.toNat * info.width.toNat :=
    Int.natCast_inj.mp hcast
  exact hfull (by simpa using hcnt) i j (Nat.zero_le i) (by omega) hj

/-- Witness for `c7_decoded_samples_in_range` on a concrete 2×2 decode. -/
theorem c7_decoded_samples_in_range_witness :
    (pgmDecode .P2 "P2\nc\n2 2\n255\n1 2\n3 4\n".toList).isOk = true
      ∧ (0 ≤ decData (pgmDecode .P2 "P2\nc\n2 2\n255\n1 2\n3 4\n".toList) 1 1
        ∧ decData (pgmDecode .P2 "P2\nc\n2 2\n255\n1 2\n3 4\n".toList) 1 1
            ≤ (decInfo (pgmDecode .P2 "P2\nc\n2 2\n255\n1 2\n3 4\n".toList)).maxDataValue) :=
  ⟨by decide,
   c7_decoded_samples_in_range .P2 "P2\nc\n2 2\n255\n1 2\n3 4\n".toList
     (by decide) 1 1 (by decide) (by decide)⟩

/-! ## Scanning toolkit: whitespace, spans, and print–parse facts -/

theorem skipWs_cons_of_not (c : Char) (s : List Char) (h : isWs c = false) :
    skipWs (c :: s) = c :: s := by
  simp [skipWs, List.dropWhile_cons, h]

theorem skipWs_ws_append (w : List Char) (hw : ∀ c ∈ w, isWs c = true)
    (s : List Char) : skipWs (w ++ s) = skipWs s := by
  induction w with
  | nil => rfl
  | cons c cs ih =>
      have hc := hw c (List.mem_cons_self c cs)
      simp only [List.cons_append, skipWs, List.dropWhile_cons, hc, if_true]
      exact ih (fun x hx => hw x (List.mem_cons_of_mem c hx))

theorem skipWs_append_of_ne_nil (s : List Char) (c : Char) (r : List Char)
    (h : skipWs s = c :: r) (t : List Char) :
    skipWs (s ++ t) = c :: (r ++ t) := by
  rw [skipWs] at h ⊢
  rw [List.dropWhile_append, h]
  simp

theorem span_all_stop (p : Char → Bool) (g : List Char)
    (hg : ∀ c ∈ g, p c = true) (c : Char) (hc : p c = false) (r : List Char) :
    (g ++ c :: r).span p = (g, c :: r) := by
  induction g with
  | nil => simp [List.span_eq_take_drop, List.takeWhile_cons, List.dropWhile_cons, hc]
  | cons a g ih =>
      have ha := hg a (List.mem_cons_self a g)
      have hrest := ih (fun x hx => hg x (List.mem_cons_of_mem a hx))
      rw [List.span_eq_take_drop] at hrest ⊢
      simp only [List.cons_append, List.takeWhile_cons, List.dropWhile_cons, ha,
        if_true]
      simp only [Prod.mk.injEq] at hrest
      simp [hrest.1, hrest.2]

theorem dropWhile_head_false (p : Char → Bool) :
    ∀ (s : List Char) (d : Char) (b : List Char),
      s.dropWhile p = d :: b → p d = false := by
  intro s
  induction s with
  | nil => intro d b h; simp at h
  | cons a s ih =>
      intro d b h
      rw [List.dropWhile_cons] at h
      split at h
      · exact ih d b h
      · rename_i ha
        cases h
        simpa using ha

theorem span_append_cons (p : Char → Bool) (s a : List Char) (d : Char)
    (b : List Char) (h : s.span p = (a, d :: b)) (t : List Char) :
    (s ++ t).span p = (a, d :: (b ++ t)) := by
  rw [List.span_eq_take_drop, Prod.mk.injEq] at h
  obtain ⟨h1, h2⟩ := h
  have hs : s = a ++ d :: b := by
    rw [← h1, ← h2, List.takeWhile_append_dropWhile]
  have ha : ∀ c ∈ a, p c = true := by
    intro c hc
    exact List.mem_takeWhile_imp (h1 ▸ hc)
  have hd : p d = false := dropWhile_head_false p s d b h2
  rw [hs, List.append_assoc, List.cons_append]
  exact span_all_stop p a ha d hd (b ++ t)

/-- The `hitEof` flag of a successful `%i` conversion records exactly whether
the rest of the stream is empty. -/
theorem scanMag_ok_eof (sgn : Int) (cs : List Char) (v : Int) (r : List Char)
    (e : Bool) (h : scanMag sgn cs = .ok v r e) : e = r.isEmpty := by
  rw [scanMag] at h
  split at h
  · split at h
    · split at h
      · simp only [ScanIntRes.ok.injEq] at h
        rw [← h.2.1, ← h.2.2]
      · simp at h
    · simp only [ScanIntRes.ok.injEq] at h
      rw [← h.2.1, ← h.2.2]
  · simp only [ScanIntRes.ok.injEq] at h
    rw [← h.2.1, ← h.2.2]

theorem scanInt_ok_eof (s : List Char) (v : Int) (r : List Char) (e : Bool)
    (h : scanInt s = .ok v r e) : e = r.isEmpty := by
  rw [scanInt] at h
  cases hsw : skipWs s
  case nil => rw [hsw] at h; simp at h
  case cons c cs =>
    rw [hsw] at h
    simp only at h
    split at h
    · cases cs
      · simp at h
      · simp only at h
        split at h
        · exact scanMag_ok_eof _ _ _ _ _ h
        · simp at h
    · split at h
      · exact scanMag_ok_eof _ _ _ _ _ h
      · simp at h

/-- Suffix stability of the `%i` magnitude scan: a conversion that did not
run into end of file reads the same value from an extended stream. -/
theorem scanMag_append (sgn : Int) (cs : List Char) (v : Int) (d : Char)
    (b : List Char) (h : scanMag sgn cs = .ok v (d :: b) false) (t : List Char) :
    scanMag sgn (cs ++ t) = .ok v (d :: (b ++ t)) false := by
  cases cs with
  | nil =>
      rw [scanMag] at h
      rw [if_neg (by decide)] at h
      simp only [ScanIntRes.ok.injEq] at h
      simp [List.span_eq_take_drop] at h
  | cons e0 cs1 =>
      rw [scanMag] at h ⊢
      simp only [List.cons_append, List.headD_cons, List.tail_cons] at h ⊢
      by_cases h0 : e0 = '0'
      · rw [if_pos h0] at h ⊢
        cases cs1 with
        | nil =>
            rw [if_neg (by decide)] at h
            simp only [ScanIntRes.ok.injEq] at h
            simp [List.span_eq_take_drop] at h
        | cons f cs2 =>
            simp only [List.cons_append, List.headD_cons, List.tail_cons] at h ⊢
            by_cases hfx : f = 'x' ∨ f = 'X'
            · rw [if_pos hfx] at h ⊢
              cases cs2 with
              | nil =>
                  rw [if_neg (by simp [List.headD]; decide)] at h
                  simp at h
              | cons g cs3 =>
                  simp only [List.cons_append, List.headD_cons, List.tail_cons]
                    at h ⊢
                  split at h
                  · rename_i hg
                    rw [if_pos hg]
                    cases hsp : (g :: cs3).span isHex with
                    | mk ds rest =>
                        rw [hsp] at h
                        simp only [ScanIntRes.ok.injEq] at h
                        obtain ⟨hv, hrest, _⟩ := h
                        subst hrest
                        have := span_append_cons isHex (g :: cs3) ds d b hsp t
                        simp only [List.cons_append] at this
                        rw [this, hv]
                        simp
                  · simp at h
            · rw [if_neg hfx] at h ⊢
              cases hsp : (f :: cs2).span isOct with
              | mk ds rest =>
                  rw [hsp] at h
                  simp only [ScanIntRes.ok.injEq] at h
                  obtain ⟨hv, hrest, _⟩ := h
                  subst hrest
                  have := span_append_cons isOct (f :: cs2) ds d b hsp t
                  simp only [List.cons_append] at this
                  rw [this, hv]
                  simp
      · rw [if_neg h0] at h ⊢
        cases hsp : (e0 :: cs1).span Char.isDigit with
        | mk ds rest =>
            rw [hsp] at h
            simp only [ScanIntRes.ok.injEq] at h
            obtain ⟨hv, hrest, _⟩ := h
            subst hrest
            have := span_append_cons Char.isDigit (e0 :: cs1) ds d b hsp t
            simp only [List.cons_append] at this
            rw [this, hv]
            simp

theorem scanInt_append (s : List Char) (v : Int) (r : List Char)
    (h : scanInt s = .ok v r false) (t : List Char) :
    scanInt (s ++ t) = .ok v (r ++ t) false := by
  have hre : r ≠ [] := by
    intro hnil
    have := scanInt_ok_eof s v r false h
    rw [hnil] at this
    simp at this
  obtain ⟨d, b, rfl⟩ : ∃ d b, r = d :: b := by
    cases r with
    | nil => exact absurd rfl hre
    | cons d b => exact ⟨d, b, rfl⟩
  rw [scanInt] at h
  cases hsw : skipWs s
  case nil => rw [hsw] at h; simp at h
  case cons c cs =>
    rw [hsw] at h
    simp only at h
    rw [scanInt, skipWs_append_of_ne_nil s c cs hsw t]
    simp only
    split at h <;> rename_i hsign
    · rw [if_pos hsign]
      cases cs with
      | nil => simp at h
      | cons d0 cs1 =>
          simp only [List.cons_append] at h ⊢
          split at h <;> rename_i hd0
          · rw [if_pos hd0]
            exact scanMag_append _ _ _ _ _ h t
          · simp at h
    · rw [if_neg hsign]
      split at h <;> rename_i hd0
      · rw [if_pos hd0]
        exact scanMag_append _ _ _ _ _ h t
      · simp at h

/-! ## Print–parse facts for decimal rendering -/

theorem digitChar_isDigit (d : ℕ) (h : d < 10) : (digitChar d).isDigit = true := by
  interval_cases d <;> decide

theorem digVal_digitChar (d : ℕ) (h : d < 10) : digVal (digitChar d) = d := by
  interval_cases d <;> decide

theorem digitChar_not_ws (d : ℕ) (h : d < 10) : isWs (digitChar d) = false := by
  interval_cases d <;> decide

theorem digitChar_eq_zero_iff (d : ℕ) (h : d < 10) : digitChar d = '0' ↔ d = 0 := by
  interval_cases d <;> simp <;> decide

theorem digitChar_ne_sign (d : ℕ) (h : d < 10) :
    digitChar d ≠ '-' ∧ digitChar d ≠ '+' := by
  interval_cases d <;> exact ⟨by decide, by decide⟩

theorem isOct_isDigit (c : Char) (h : isOct c = true) : c.isDigit = true := by
  rw [isOct] at h
  rw [Char.isDigit]
  simp only [Bool.and_eq_true, decide_eq_true_eq] at h ⊢
  exact ⟨h.1, le_trans h.2 (show ('7' : Char) ≤ '9' by decide)⟩

theorem isOct_false_of_not_digit (c : Char) (h : c.isDigit = false) :
    isOct c = false := by
  cases ho : isOct c
  · rfl
  · rw [isOct_isDigit c ho] at h
    cases h

theorem natCharsAux_indep :
    ∀ (n f1 f2 : ℕ), n < f1 → n < f2 → natCharsAux f1 n = natCharsAux f2 n := by
  intro n
  induction n using Nat.strong_induction_on with
  | _ n ih =>
      intro f1 f2 h1 h2
      match f1, f2 with
      | g1 + 1, g2 + 1 =>
          rw [natCharsAux, natCharsAux]
          split
          · rfl
          · rename_i h10
            push_neg at h10
            have hlt : n / 10 < n := Nat.div_lt_self (by omega) (by omega)
            rw [ih (n / 10) hlt g1 g2 (by omega) (by omega)]

theorem natChars_unfold (n : ℕ) :
    natChars n = if n < 10 then [digitChar n]
      else natChars (n / 10) ++ [digitChar (n % 10)] := by
  rw [natChars, natCharsAux]
  split
  · rfl
  · rename_i h10
    push_neg at h10
    rw [natChars,
      natCharsAux_indep (n / 10) n (n / 10 + 1) (Nat.div_lt_self (by omega) (by omega))
        (Nat.lt_succ_self _)]

theorem natChars_all_digit (n : ℕ) : ∀ c ∈ natChars n, c.isDigit = true := by
  induction n using Nat.strong_induction_on with
  | _ n ih =>
      intro c hc
      rw [natChars_unfold] at hc
      split at hc
      · rename_i h10
        simp only [List.mem_singleton] at hc
        subst hc
        exact digitChar_isDigit n h10
      · rename_i h10
        push_neg at h10
        rw [List.mem_append] at hc
        rcases hc with hc | hc
        · exact ih (n / 10) (Nat.div_lt_self (by omega) (by omega)) c hc
        · simp only [List.mem_singleton] at hc
          subst hc
          exact digitChar_isDigit _ (Nat.mod_lt n (by omega))

theorem natChars_zero : natChars 0 = ['0'] := by decide

theorem natChars_head_pos (n : ℕ) (h : 1 ≤ n) :
    ∃ d ds, natChars n = digitChar d :: ds ∧ 1 ≤ d ∧ d < 10 := by
  induction n using Nat.strong_induction_on with
  | _ n ih =>
      rw [natChars_unfold]
      split
      · rename_i h10
        exact ⟨n, [], rfl, h, h10⟩
      · rename_i h10
        push_neg at h10
        have hq : 1 ≤ n / 10 := Nat.one_le_div_iff (by omega) |>.mpr h10
        obtain ⟨d, ds, heq, hd1, hd10⟩ :=
          ih (n / 10) (Nat.div_lt_self (by omega) (by omega)) hq
        exact ⟨d, ds ++ [digitChar (n % 10)], by rw [heq]; rfl, hd1, hd10⟩

theorem digitsVal_append_one (b : ℕ) (xs : List Char) (d : Char) :
    digitsVal b (xs ++ [d]) = b * digitsVal b xs + digVal d := by
  simp [digitsVal, List.foldl_append]

theorem digitsVal_natChars (n : ℕ) : digitsVal 10 (natChars n) = n := by
  induction n using Nat.strong_induction_on with
  | _ n ih =>
      rw [natChars_unfold]
      split
      · rename_i h10
        simp [digitsVal, digVal_digitChar n h10]
      · rename_i h10
        push_neg at h10
        rw [digitsVal_append_one,
          ih (n / 10) (Nat.div_lt_self (by omega) (by omega)),
          digVal_digitChar _ (Nat.mod_lt n (by omega))]
        omega

/-- `%i` on a stream holding optional whitespace, a printed integer and a
non-digit, non-hex-marker stop character reads the integer back exactly and
leaves the stop character unread. -/
theorem scanInt_render (pre : List Char) (hpre : ∀ c ∈ pre, isWs c = true)
    (v : Int) (c : Char) (r : List Char)
    (hc : c.isDigit = false) (hx : c ≠ 'x') (hX : c ≠ 'X') :
    scanInt (pre ++ (intChars v ++ c :: r)) = .ok v (c :: r) false := by
  have hco : isOct c = false := isOct_false_of_not_digit c hc
  rw [scanInt, skipWs_ws_append pre hpre]
  rcases lt_or_le v 0 with hv | hv
  · -- negative: '-' then the digits of the magnitude
    have habs : 1 ≤ v.natAbs := by omega
    obtain ⟨d, ds, hnc, hd1, hd10⟩ := natChars_head_pos v.natAbs habs
    rw [show intChars v = '-' :: natChars v.natAbs from by rw [intChars, if_pos hv]]
    simp only [List.cons_append]
    rw [skipWs_cons_of_not '-' _ (by decide)]
    simp only [true_or, if_true]
    rw [hnc]
    simp only [List.cons_append]
    rw [if_pos (digitChar_isDigit d hd10)]
    rw [scanMag]
    rw [if_neg (by
      simp only [List.headD_cons]
      rw [digitChar_eq_zero_iff d hd10]
      omega)]
    have hsp : (digitChar d :: (ds ++ c :: r)).span Char.isDigit
        = (digitChar d :: ds, c :: r) := by
      rw [show digitChar d :: (ds ++ c :: r) = (digitChar d :: ds) ++ c :: r by simp]
      apply span_all_stop
      · intro x hx2
        exact natChars_all_digit v.natAbs x (hnc ▸ hx2)
      · exact hc
    rw [hsp]
    simp only [ScanIntRes.ok.injEq]
    refine ⟨?_, trivial, by simp⟩
    rw [show digitChar d :: ds = natChars v.natAbs from hnc.symm,
      digitsVal_natChars]
    omega
  · -- nonnegative
    rw [show intChars v = natChars v.toNat from by rw [intChars, if_neg (by omega)]]
    rcases Nat.eq_zero_or_pos v.toNat with h0 | hpos
    · -- v = 0 renders "0" and parses through the octal branch
      have hv0 : v = 0 := by omega
      rw [h0, natChars_zero]
      simp only [List.cons_append, List.nil_append]
      rw [skipWs_cons_of_not '0' _ (by decide)]
      simp only
      rw [if_neg (by decide), if_pos (by decide)]
      rw [scanMag]
      simp only [List.headD_cons, List.tail_cons, if_true]
      rw [if_neg (by
        rintro (h' | h')
        · exact hx h'
        · exact hX h')]
      have hsp : (c :: r).span isOct = ([], c :: r) :=
        span_all_stop isOct [] (by intro x hx2; cases hx2) c hco r
      rw [hsp]
      simp [hv0, digitsVal]
    · obtain ⟨d, ds, hnc, hd1, hd10⟩ := natChars_head_pos v.toNat hpos
      rw [hnc]
      simp only [List.cons_append]
      rw [skipWs_cons_of_not _ _ (digitChar_not_ws d hd10)]
      simp only
      rw [if_neg (by
        rintro (h' | h')
        · exact (digitChar_ne_sign d hd10).1 h'
        · exact (digitChar_ne_sign d hd10).2 h')]
      rw [if_pos (digitChar_isDigit d hd10)]
      rw [scanMag]
      rw [if_neg (by
        simp only [List.headD_cons]
        rw [digitChar_eq_zero_iff d hd10]
        omega)]
      have hsp : (digitChar d :: (ds ++ c :: r)).span Char.isDigit
          = (digitChar d :: ds, c :: r) := by
        rw [show digitChar d :: (ds ++ c :: r) = (digitChar d :: ds) ++ c :: r by simp]
        apply span_all_stop
        · intro x hx2
          exact natChars_all_digit v.toNat x (hnc ▸ hx2)
        · exact hc
      rw [hsp]
      simp only [ScanIntRes.ok.injEq]
      refine ⟨?_, trivial, by simp⟩
      rw [show digitChar d :: ds = natChars v.toNat from hnc.symm,
        digitsVal_natChars]
      omega

/-! ## Suffix stability of the ASCII body loop and the header -/

/-- A continuing P2 cell behaves identically on an extended stream. -/
theorem readCell_P2_append (mx : Int) (row col : ℕ) (st st' : RdState)
    (t : List Char) (h : readCell .P2 mx row col st = .cont st') :
    readCell .P2 mx row col { st with rest := st.rest ++ t }
      = .cont { st' with rest := st'.rest ++ t } := by
  rw [readCell] at h
  cases hs : scanInt st.rest
  case matchFail => rw [hs] at h; simp at h
  case inputFail => rw [hs] at h; simp at h
  case ok v rest hitEof =>
    rw [hs] at h
    simp only at h
    split at h
    · simp at h
    · rename_i hEof
      split at h
      · simp at h
      · rename_i hrange
        simp only [CellOut.cont.injEq] at h
        subst h
        have hEof' : hitEof = false := by
          cases hitEof
          · rfl
          · exact absurd rfl hEof
        subst hEof'
        rw [readCell]
        simp only
        rw [scanInt_append st.rest v rest hs t]
        simp only [Bool.false_eq_true, if_false]
        rw [if_neg hrange]

/-- A full-count P2 row behaves identically on an extended stream. -/
theorem readRowFrom_P2_append (mx : Int) (row : ℕ) :
    ∀ (n col : ℕ) (st st' : RdState) (t : List Char),
      readRowFrom .P2 mx row col n st = some st' →
      st'.dataCount = st.dataCount + n →
      readRowFrom .P2 mx row col n { st with rest := st.rest ++ t }
        = some { st' with rest := st'.rest ++ t } := by
  intro n
  induction n with
  | zero =>
      intro col st st' t h hcnt
      cases h
      rfl
  | succ n ih =>
      intro col st st' t h hcnt
      rw [readRowFrom] at h
      cases hc : readCell .P2 mx row col st
      case err => rw [hc] at h; simp at h
      case brk st1 =>
        rw [hc] at h
        simp only [Option.some.injEq] at h
        subst h
        obtain ⟨hc1, _⟩ := readCell_brk .P2 mx row col st st1 hc
        omega
      case cont st1 =>
        rw [hc] at h
        simp only at h
        obtain ⟨hc1, _, _⟩ := readCell_cont .P2 mx row col st st1 hc
        obtain ⟨hb, _, _⟩ := readRowFrom_facts .P2 mx row n (col + 1) st1 st' h
        rw [readRowFrom, readCell_P2_append mx row col st st1 t hc]
        simp only
        exact ih (col + 1) st1 st' t h (by omega)

/-- Full-count P2 rows behave identically on an extended stream. -/
theorem readRowsFrom_P2_append (mx : Int) (cols : ℕ) :
    ∀ (n row : ℕ) (st st' : RdState) (t : List Char),
      readRowsFrom .P2 mx cols row n st = some st' →
      st'.dataCount = st.dataCount + n * cols →
      readRowsFrom .P2 mx cols row n { st with rest := st.rest ++ t }
        = some { st' with rest := st'.rest ++ t } := by
  intro n
  induction n with
  | zero =>
      intro row st st' t h hcnt
      cases h
      rfl
  | succ n ih =>
      intro row st st' t h hcnt
      rw [readRowsFrom] at h
      cases hr : readRowFrom .P2 mx row 0 cols st
      case none => rw [hr] at h; simp at h
      case some st1 =>
        rw [hr] at h
        simp only at h
        obtain ⟨hb1, _, _⟩ := readRowFrom_facts .P2 mx row cols 0 st st1 hr
        obtain ⟨hb2, _, _⟩ := readRowsFrom_facts .P2 mx cols n (row + 1) st1 st' h
        have hcnt1 : st1.dataCount = st.dataCount + cols := by nlinarith
        rw [readRowsFrom,
          readRowFrom_P2_append mx row cols 0 st st1 t hr hcnt1]
        simp only
        apply ih (row + 1) st1 st' t h
        have : (n + 1) * cols = cols + n * cols := by ring
        omega

/-- On an exhausted stream the P2 row loop reads nothing. -/
theorem readRowFrom_P2_nil (mx : Int) (row : ℕ) :
    ∀ (n col : ℕ) (st : RdState), st.rest = [] →
      readRowFrom .P2 mx row col n st = some st := by
  intro n
  cases n with
  | zero => intro col st _; rfl
  | succ n =>
      intro col st hnil
      rw [readRowFrom, readCell]
      rw [hnil]
      rw [show scanInt [] = ScanIntRes.inputFail from rfl]

/-- On an exhausted stream the P2 rows loop reads nothing. -/
theorem readRowsFrom_P2_nil (mx : Int) (cols : ℕ) :
    ∀ (n row : ℕ) (st : RdState), st.rest = [] →
      readRowsFrom .P2 mx cols row n st = some st := by
  intro n
  induction n with
  | zero => intro row st _; rfl
  | succ n ih =>
      intro row st hnil
      rw [readRowsFrom, readRowFrom_P2_nil mx row cols 0 st hnil]
      simp only
      exact ih (row + 1) st hnil

/-- A header parse that leaves part of the stream unread is unaffected by
bytes appended after the stream. -/
theorem rawReadPgmInfo_append (s : List Char) (tok : List Char) (w ht mx : Int)
    (rest t : List Char)
    (hr : rawReadPgmInfo s = some (tok, w, ht, mx, rest)) (hne : rest ≠ []) :
    rawReadPgmInfo (s ++ t) = some (tok, w, ht, mx, rest ++ t) := by
  rw [rawReadPgmInfo] at hr
  cases hsw : skipWs s
  case nil => rw [hsw] at hr; simp at hr
  case cons c r0 =>
  rw [hsw] at hr
  simp only at hr
  cases htk : (c :: r0).span (fun ch => !isWs ch) with
  | mk tok1 tokRest =>
  rw [htk] at hr
  simp only at hr
  cases hcm : (skipWs tokRest).span (fun ch => ch != '\n') with
  | mk com comRest =>
  rw [hcm] at hr
  simp only at hr
  by_cases hce : com.isEmpty
  · rw [if_pos hce] at hr; simp at hr
  rw [if_neg hce] at hr
  cases hs1 : scanInt comRest with
  | matchFail => rw [hs1] at hr; simp at hr
  | inputFail => rw [hs1] at hr; simp at hr
  | ok w1 restW e1 =>
  rw [hs1] at hr
  simp only at hr
  cases hs2 : scanInt restW with
  | matchFail => rw [hs2] at hr; simp at hr
  | inputFail => rw [hs2] at hr; simp at hr
  | ok ht1 restH e2 =>
  rw [hs2] at hr
  simp only at hr
  cases hs3 : scanInt restH with
  | matchFail => rw [hs3] at hr; simp at hr
  | inputFail => rw [hs3] at hr; simp at hr
  | ok mx1 restM e3 =>
  rw [hs3] at hr
  simp only [Option.some.injEq, Prod.mk.injEq] at hr
  obtain ⟨rfl, rfl, rfl, rfl, hrest⟩ := hr
  -- nonemptiness of every intermediate stream
  have hrestM : restM ≠ [] := by
    intro h0
    rw [h0] at hrest
    exact hne (hrest ▸ rfl)
  have hrestH : restH ≠ [] := by
    intro h0
    rw [h0, show scanInt [] = ScanIntRes.inputFail from rfl] at hs3
    simp at hs3
  have hrestW : restW ≠ [] := by
    intro h0
    rw [h0, show scanInt [] = ScanIntRes.inputFail from rfl] at hs2
    simp at hs2
  have hcomRest : comRest ≠ [] := by
    intro h0
    rw [h0, show scanInt [] = ScanIntRes.inputFail from rfl] at hs1
    simp at hs1
  have he1 : e1 = false := by
    rw [scanInt_ok_eof comRest w1 restW e1 hs1]
    simp [List.isEmpty_iff, hrestW]
  have he2 : e2 = false := by
    rw [scanInt_ok_eof restW ht1 restH e2 hs2]
    simp [List.isEmpty_iff, hrestH]
  have he3 : e3 = false := by
    rw [scanInt_ok_eof restH mx1 restM e3 hs3]
    simp [List.isEmpty_iff, hrestM]
  subst he1 he2 he3
  have hcom : com ≠ [] := by
    intro h0; rw [h0] at hce; exact hce rfl
  have htokRest : tokRest ≠ [] := by
    intro h0
    rw [h0] at hcm
    rw [show skipWs ([] : List Char) = [] from rfl] at hcm
    rw [show (([] : List Char).span (fun ch => ch != '\n')) = ([], []) from rfl]
      at hcm
    simp only [Prod.mk.injEq] at hcm
    exact hcom hcm.1.symm
  -- destructure the nonempty lists to apply the append lemmas
  obtain ⟨dM, bM, rfl⟩ : ∃ d b, restM = d :: b := by
    cases restM with
    | nil => exact absurd rfl hrestM
    | cons d b => exact ⟨d, b, rfl⟩
  obtain ⟨dC, bC, rfl⟩ : ∃ d b, comRest = d :: b := by
    cases comRest with
    | nil => exact absurd rfl hcomRest
    | cons d b => exact ⟨d, b, rfl⟩
  obtain ⟨dT, bT, rfl⟩ : ∃ d b, tokRest = d :: b := by
    cases tokRest with
    | nil => exact absurd rfl htokRest
    | cons d b => exact ⟨d, b, rfl⟩
  obtain ⟨dR, bR, hrestC⟩ : ∃ d b, rest = d :: b := by
    cases rest with
    | nil => exact absurd rfl hne
    | cons d b => exact ⟨d, b, rfl⟩
  -- the extended stream takes the same path at every stage
  have E1 : skipWs (s ++ t) = c :: (r0 ++ t) :=
    skipWs_append_of_ne_nil s c r0 hsw t
  have E2 := span_append_cons _ _ _ _ _ htk t
  simp only [List.cons_append] at E2
  have E3 : skipWs (dT :: (bT ++ t)) = skipWs (dT :: bT) ++ t := by
    cases hswT : skipWs (dT :: bT) with
    | nil =>
        exfalso
        rw [hswT] at hcm
        rw [show (([] : List Char).span (fun ch => ch != '\n')) = ([], []) from
          rfl] at hcm
        simp only [Prod.mk.injEq] at hcm
        exact hcom hcm.1.symm
    | cons d2 b2 =>
        have h := skipWs_append_of_ne_nil (dT :: bT) d2 b2 hswT t
        simp only [List.cons_append] at h
        rw [h]
        simp
  have E4 := span_append_cons _ _ _ _ _ hcm t
  simp only [List.cons_append] at E4
  have E5 := scanInt_append _ _ _ hs1 t
  simp only [List.cons_append] at E5
  have E6 := scanInt_append _ _ _ hs2 t
  have E7 := scanInt_append _ _ _ hs3 t
  simp only [List.cons_append] at E7
  have E8 : skipWs (dM :: (bM ++ t)) = rest ++ t := by
    rw [hrestC] at hrest
    have h := skipWs_append_of_ne_nil (dM :: bM) dR bR hrest t
    simp only [List.cons_append] at h
    rw [h, hrestC]
    rfl
  rw [rawReadPgmInfo, E1]
  simp only
  rw [E2]
  simp only
  rw [E3, E4]
  simp only
  rw [if_neg hce]
  rw [E5]
  simp only
  rw [E6]
  simp only
  rw [E7]
  simp only
  rw [E8]
/-- `TryReadPgmInfo` is unaffected by appended bytes when the header leaves
part of the stream unread. -/
theorem TryReadPgmInfo_append (expected : PgmType) (s : List Char)
    (info : PgmInfo) (rest t : List Char)
    (h : TryReadPgmInfo expected s = .ok (info, rest)) (hne : rest ≠ []) :
    TryReadPgmInfo expected (s ++ t) = .ok (info, rest ++ t) := by
  rw [TryReadPgmInfo] at h
  cases hr : rawReadPgmInfo s
  case none => rw [hr] at h; simp at h
  case some q =>
    obtain ⟨tok, w, ht, mx, rest0⟩ := q
    rw [hr] at h
    simp only at h
    by_cases hP : expected = PgmType.UNKNOWN ∧ StrToPgmType tok ≠ PgmType.UNKNOWN
    · rw [if_pos hP] at h
      rw [if_neg (by simp)] at h
      simp only [Except.ok.injEq, Prod.mk.injEq] at h
      obtain ⟨hinfo, rfl⟩ := h
      rw [TryReadPgmInfo,
        rawReadPgmInfo_append s tok w ht mx rest0 t hr hne]
      simp only
      rw [if_pos hP, if_neg (by simp), hinfo]
    · rw [if_neg hP] at h
      by_cases hT : expected ≠ StrToPgmType tok
      · rw [if_pos hT] at h
        simp at h
      · rw [if_neg hT] at h
        simp only [Except.ok.injEq, Prod.mk.injEq] at h
        obtain ⟨hinfo, rfl⟩ := h
        rw [TryReadPgmInfo,
          rawReadPgmInfo_append s tok w ht mx rest0 t hr hne]
        simp only
        rw [if_neg hP, if_neg hT, hinfo]

/-- A successful P2 body read over at least one sample is unaffected by
appended bytes. -/
theorem TryReadPgmData_P2_append (info : PgmInfo) (s : List Char)
    (st : RdState) (t : List Char) (hP2 : info.type = .P2)
    (h : TryReadPgmData info s = .ok st)
    (hpos : 1 ≤ info.width * info.height) :
    TryReadPgmData info (s ++ t) = .ok { st with rest := st.rest ++ t } := by
  obtain ⟨hrows, hcount, _⟩ := TryReadPgmData_ok info s st h
  obtain ⟨hle, _, _⟩ := readRowsFrom_facts info.type info.maxDataValue
    info.width.toNat info.height.toNat 0 _ st hrows
  simp only at hle
  have hcnt1 : 1 ≤ st.dataCount := by
    have h1 : (1 : Int) ≤ st.dataCount := hpos.trans_eq hcount.symm
    exact_mod_cast h1
  have hw1 : 1 ≤ info.width := by
    by_contra hw
    push_neg at hw
    have hw0 : info.width.toNat = 0 := by omega
    rw [hw0] at hle
    simp at hle
    omega
  have hh1 : 1 ≤ info.height := by
    by_contra hh
    push_neg at hh
    have hh0 : info.height.toNat = 0 := by omega
    rw [hh0] at hle
    simp at hle
    omega
  have hcast : (st.dataCount : Int)
      = (info.height.toNat * info.width.toNat : ℕ) := by
    rw [hcount]
    push_cast
    rw [Int.toNat_of_nonneg (by omega), Int.toNat_of_nonneg (by omega)]
    ring
  have hcnt : st.dataCount = info.height.toNat * info.width.toNat :=
    Int.natCast_inj.mp hcast
  have hrows' := hrows
  rw [hP2] at hrows'
  have happ := readRowsFrom_P2_append info.maxDataValue info.width.toNat
    info.height.toNat 0 ⟨fun _ _ => 0, [], 0, s⟩ st t hrows' (by simpa using hcnt)
  have happ' : readRowsFrom PgmType.P2 info.maxDataValue info.width.toNat 0
      info.height.toNat ⟨fun _ _ => 0, [], 0, s ++ t⟩
      = some { st with rest := st.rest ++ t } := happ
  rw [TryReadPgmData, hP2, happ']
  simp only
  split
  · rename_i hcond
    exfalso
    rcases hcond with ⟨hps, _⟩ | hne2
    · exact absurd hps (by decide)
    · exact hne2 (by simpa using hcount)
  · rfl

/-- C9: the end-of-stream requirement is P5-only — a P2 decode that read all
`width × height` samples also succeeds on the stream extended by arbitrary
trailing bytes, with the same descriptor and the same sample grid. -/
theorem c9_p2_tolerates_trailing_bytes (s t : List Char)
    (hok : (pgmDecode .P2 s).isOk = true)
    (hpos : 1 ≤ (decInfo (pgmDecode .P2 s)).width
        * (decInfo (pgmDecode .P2 s)).height) :
    (pgmDecode .P2 (s ++ t)).isOk = true
      ∧ decInfo (pgmDecode .P2 (s ++ t)) = decInfo (pgmDecode .P2 s)
      ∧ ∀ i j, decData (pgmDecode .P2 (s ++ t)) i j
          = decData (pgmDecode .P2 s) i j := by
  obtain ⟨r, hr⟩ := pgmDecode_isOk_exists .P2 s hok
  obtain ⟨info, rest, st, hinfo, hdata, rfl⟩ := pgmDecode_eq_ok .P2 s r hr
  rw [hr] at hpos
  simp only [decInfo] at hpos
  -- the final type is the expected one, P2
  have hP2 : info.type = .P2 := by
    rw [TryReadPgmInfo] at hinfo
    cases hraw : rawReadPgmInfo s
    case none => rw [hraw] at hinfo; simp at hinfo
    case some q =>
      obtain ⟨tok, w0, h0, m0, rest0⟩ := q
      rw [hraw] at hinfo
      simp only at hinfo
      rw [if_neg (show ¬(PgmType.P2 = PgmType.UNKNOWN
        ∧ StrToPgmType tok ≠ PgmType.UNKNOWN) by simp)] at hinfo
      by_cases hT : PgmType.P2 ≠ StrToPgmType tok
      · rw [if_pos hT] at hinfo
        simp at hinfo
      · rw [if_neg hT] at hinfo
        simp only [Except.ok.injEq, Prod.mk.injEq] at hinfo
        rw [← hinfo.1]
  -- the body is nonempty: an empty body reads zero samples
  have hne : rest ≠ [] := by
    intro h0
    obtain ⟨hrows, hcount, _⟩ := TryReadPgmData_ok info rest st hdata
    rw [hP2, h0] at hrows
    have hnil := readRowsFrom_P2_nil info.maxDataValue info.width.toNat
      info.height.toNat 0 ⟨fun _ _ => 0, [], 0, []⟩ rfl
    rw [hnil] at hrows
    obtain rfl : (⟨fun _ _ => 0, [], 0, []⟩ : RdState) = st := by
      simpa using hrows
    simp only at hcount
    have h1 : (1 : Int) ≤ (0 : ℕ) := hpos.trans_eq hcount.symm
    simp at h1
  have hinfo' := TryReadPgmInfo_append .P2 s info rest t hinfo hne
  have hdata' := TryReadPgmData_P2_append info rest st t hP2 hdata hpos
  have hdec : pgmDecode .P2 (s ++ t)
      = .ok ⟨info, st.data, st.writes, st.rest ++ t⟩ := by
    rw [pgmDecode, hinfo']
    simp only
    rw [hdata']
  rw [hdec, hr]
  exact ⟨by simp [Except.isOk, Except.toBool], rfl, fun i j => rfl⟩

/-- Witness for `c9_p2_tolerates_trailing_bytes`: a 1×1 P2 image whose body
is followed by trailing junk. -/
theorem c9_p2_tolerates_trailing_bytes_witness :
    ((pgmDecode .P2 "P2\nc\n1 1\n255\n5\n".toList).isOk = true
        ∧ 1 ≤ (decInfo (pgmDecode .P2 "P2\nc\n1 1\n255\n5\n".toList)).width
            * (decInfo (pgmDecode .P2 "P2\nc\n1 1\n255\n5\n".toList)).height)
      ∧ (pgmDecode .P2 ("P2\nc\n1 1\n255\n5\n".toList
          ++ "trailing junk!".toList)).isOk = true
      ∧ decData (pgmDecode .P2 ("P2\nc\n1 1\n255\n5\n".toList
          ++ "trailing junk!".toList)) 0 0
        = decData (pgmDecode .P2 "P2\nc\n1 1\n255\n5\n".toList) 0 0 := by
  refine ⟨⟨by decide, by decide⟩, ?_⟩
  have h := c9_p2_tolerates_trailing_bytes "P2\nc\n1 1\n255\n5\n".toList
    "trailing junk!".toList (by decide) (by decide)
  exact ⟨h.1, h.2.2 0 0⟩

/-! ## Round trip: re-parsing the printed header and body -/

theorem skipWs_cons_ws (c : Char) (l : List Char) (hc : isWs c = true) :
    skipWs (c :: l) = skipWs l := by
  simp [skipWs, List.dropWhile_cons, hc]

/-- The rendering of a nonnegative integer starts with a digit. -/
theorem intChars_nonneg_head (v : Int) (hv : 0 ≤ v) :
    ∃ d ds, intChars v = digitChar d :: ds ∧ d < 10 := by
  rw [intChars, if_neg (by omega)]
  rcases Nat.eq_zero_or_pos v.toNat with h0 | h1
  · rw [h0, natChars_zero]
    exact ⟨0, [], by decide, by decide⟩
  · obtain ⟨d, ds, heq, _, hd10⟩ := natChars_head_pos v.toNat h1
    exact ⟨d, ds, heq, hd10⟩

/-- A stream opening with a printed nonnegative integer has no leading
whitespace. -/
theorem skipWs_intChars_append (v : Int) (hv : 0 ≤ v) (x : List Char) :
    skipWs (intChars v ++ x) = intChars v ++ x := by
  obtain ⟨d, ds, heq, hd10⟩ := intChars_nonneg_head v hv
  rw [heq]
  simp only [List.cons_append]
  exact skipWs_cons_of_not _ _ (digitChar_not_ws d hd10)

/-- Scanning the header printed by `WritePgmInfo` for a P2 descriptor
recovers the descriptor exactly and leaves the body (assumed free of leading
whitespace) unread. -/
theorem rawReadPgmInfo_render (w h mx : Int) (body : List Char)
    (hbody : skipWs body = body) :
    rawReadPgmInfo (WritePgmInfo ⟨.P2, w, h, mx⟩ ++ body)
      = some (['P', '2'], w, h, mx, body) := by
  have hS : WritePgmInfo ⟨.P2, w, h, mx⟩ ++ body
      = 'P' :: '2' :: '\n' :: ("# Generated by pnmdump.exe".toList
        ++ '\n' :: (intChars w ++ ' ' :: (intChars h
        ++ '\n' :: (intChars mx ++ '\n' :: body)))) := by
    simp [WritePgmInfo, PgmTypeToStr, List.append_assoc]
  rw [hS, rawReadPgmInfo]
  rw [skipWs_cons_of_not 'P' _ (by decide)]
  simp only
  have hspan1 := span_all_stop (fun ch => !isWs ch) ['P', '2'] (by decide)
    '\n' (by decide) ("# Generated by pnmdump.exe".toList
      ++ '\n' :: (intChars w ++ ' ' :: (intChars h
      ++ '\n' :: (intChars mx ++ '\n' :: body))))
  simp only [List.cons_append, List.nil_append] at hspan1
  rw [hspan1]
  simp only
  rw [skipWs_cons_ws '\n' _ (by decide)]
  rw [show "# Generated by pnmdump.exe".toList
    = '#' :: " Generated by pnmdump.exe".toList from by decide]
  simp only [List.cons_append]
  rw [skipWs_cons_of_not '#' _ (by decide)]
  have hspan2 := span_all_stop (fun ch => ch != '\n')
    ('#' :: " Generated by pnmdump.exe".toList) (by decide)
    '\n' (by decide) (intChars w ++ ' ' :: (intChars h
      ++ '\n' :: (intChars mx ++ '\n' :: body)))
  simp only [List.cons_append, List.nil_append] at hspan2
  rw [hspan2]
  simp only
  rw [if_neg (by decide)]
  have hs1 := scanInt_render ['\n'] (by decide) w ' '
    (intChars h ++ '\n' :: (intChars mx ++ '\n' :: body))
    (by decide) (by decide) (by decide)
  simp only [List.cons_append, List.nil_append] at hs1
  rw [hs1]
  simp only
  have hs2 := scanInt_render [' '] (by decide) h '\n'
    (intChars mx ++ '\n' :: body) (by decide) (by decide) (by decide)
  simp only [List.cons_append, List.nil_append] at hs2
  rw [hs2]
  simp only
  have hs3 := scanInt_render ['\n'] (by decide) mx '\n' body
    (by decide) (by decide) (by decide)
  simp only [List.cons_append, List.nil_append] at hs3
  rw [hs3]
  simp only
  rw [skipWs_cons_ws '\n' body (by decide), hbody]

/-- `TryReadPgmInfo` on the printed header of a P2 descriptor succeeds with
the same descriptor. -/
theorem TryReadPgmInfo_render (info : PgmInfo) (hty : info.type = .P2)
    (body : List Char) (hbody : skipWs body = body) :
    TryReadPgmInfo .P2 (WritePgmInfo info ++ body) = .ok (info, body) := by
  obtain ⟨ty, w, h, mx⟩ := info
  simp only at hty
  subst hty
  rw [TryReadPgmInfo, rawReadPgmInfo_render w h mx body hbody]
  simp only
  rw [if_neg (by simp [StrToPgmType]), if_neg (by simp [StrToPgmType])]

theorem getD_map_range (f : ℕ → Int) (n j : ℕ) (hj : j < n) :
    ((List.range n).map f).getD j 0 = f j := by
  rw [List.getD_eq_getElem?_getD, List.getElem?_map, List.getElem?_range hj]
  rfl

/-- Reading the space-prefixed rendered cells of a row segment stores exactly
the rendered values and stops at the row's newline. -/
theorem readCells_render (mx : Int) (row : ℕ) :
    ∀ (vs : List Int) (col : ℕ) (st : RdState) (more : List Char),
      (∀ v ∈ vs, 0 ≤ v ∧ v ≤ mx) →
      st.rest = renderCells vs ++ '\n' :: more →
      ∃ st', readRowFrom .P2 mx row col vs.length st = some st'
        ∧ st'.dataCount = st.dataCount + vs.length
        ∧ st'.rest = '\n' :: more
        ∧ (∀ j, j < vs.length → st'.data row (col + j) = vs.getD j 0)
        ∧ (∀ i j, i ≠ row ∨ j < col ∨ col + vs.length ≤ j →
            st'.data i j = st.data i j) := by
  intro vs
  induction vs with
  | nil =>
      intro col st more _ hrest
      refine ⟨st, rfl, by simp, ?_, by simp, fun i j _ => rfl⟩
      rw [hrest]
      rfl
  | cons v vt ih =>
      intro col st more hvs hrest
      obtain ⟨c0, r0, hshape, hc0d, hc0x, hc0X⟩ :
          ∃ c0 r0, renderCells vt ++ '\n' :: more = c0 :: r0
            ∧ c0.isDigit = false ∧ c0 ≠ 'x' ∧ c0 ≠ 'X' := by
        cases vt with
        | nil => exact ⟨'\n', more, rfl, by decide, by decide, by decide⟩
        | cons u ut =>
            refine ⟨' ', intChars u ++ (renderCells ut ++ '\n' :: more),
              ?_, by decide, by decide, by decide⟩
            simp [renderCells, List.append_assoc]
      have hrc : renderCells (v :: vt) = ' ' :: (intChars v ++ renderCells vt) := by
        simp [renderCells]
      have hrest' : st.rest = ' ' :: (intChars v ++ (c0 :: r0)) := by
        rw [hrest, hrc]
        simp only [List.cons_append, List.append_assoc]
        rw [hshape]
      have hscan := scanInt_render [' '] (by decide) v c0 r0 hc0d hc0x hc0X
      simp only [List.cons_append, List.nil_append] at hscan
      have hv0 := hvs v (List.mem_cons_self v vt)
      have hcell : readCell .P2 mx row col st
          = .cont ⟨fun i j => if i = row ∧ j = col then v else st.data i j,
              (row, col) :: st.writes, st.dataCount + 1, c0 :: r0⟩ := by
        rw [readCell]
        rw [hrest', hscan]
        simp only [Bool.false_eq_true, if_false]
        rw [if_neg (by push_neg; exact ⟨by omega, by omega⟩)]
      obtain ⟨st', hread, hcnt, hrest2, hvals, hpres⟩ :=
        ih (col + 1)
          ⟨fun i j => if i = row ∧ j = col then v else st.data i j,
            (row, col) :: st.writes, st.dataCount + 1, c0 :: r0⟩
          more (fun u hu => hvs u (List.mem_cons_of_mem v hu)) hshape.symm
      refine ⟨st', ?_, ?_, hrest2, ?_, ?_⟩
      · simp only [List.length_cons]
        rw [readRowFrom, hcell]
        simp only
        exact hread
      · simp only [List.length_cons] at hcnt ⊢
        omega
      · intro j hj
        cases j with
        | zero =>
            have h1 : st'.data row (col + 0) = st'.data row col := by rw [Nat.add_zero]
            rw [h1, hpres row col (Or.inr (Or.inl (by omega)))]
            simp
        | succ k =>
            simp only [List.length_cons] at hj
            have h1 := hvals k (by omega)
            rw [show col + (k + 1) = (col + 1) + k from by omega, h1]
            simp
      · intro i j hout
        have h1 : st'.data i j
            = (if i = row ∧ j = col then v else st.data i j) := by
          apply hpres i j
          simp only [List.length_cons] at hout
          rcases hout with h' | h' | h'
          · exact Or.inl h'
          · exact Or.inr (Or.inl (by omega))
          · exact Or.inr (Or.inr (by omega))
        rw [h1, if_neg]
        rintro ⟨rfl, rfl⟩
        simp only [List.length_cons] at hout
        rcases hout with h' | h' | h' <;> omega

/-- Reading a whole rendered row (bare first sample, spaced rest) after an
all-whitespace prefix stores the row's values and stops at the newline. -/
theorem readRowFull_render (mx : Int) (row : ℕ) (pre : List Char)
    (hpre : ∀ c ∈ pre, isWs c = true) (v : Int) (vt : List Int)
    (hv : 0 ≤ v ∧ v ≤ mx) (hvt : ∀ u ∈ vt, 0 ≤ u ∧ u ≤ mx)
    (st : RdState) (more : List Char)
    (hrest : st.rest = pre ++ (intChars v ++ (renderCells vt ++ '\n' :: more))) :
    ∃ st', readRowFrom .P2 mx row 0 (vt.length + 1) st = some st'
      ∧ st'.dataCount = st.dataCount + (vt.length + 1)
      ∧ st'.rest = '\n' :: more
      ∧ (∀ j, j < vt.length + 1 → st'.data row j = (v :: vt).getD j 0)
      ∧ (∀ i j, i ≠ row ∨ vt.length + 1 ≤ j → st'.data i j = st.data i j) := by
  obtain ⟨c0, r0, hshape, hc0d, hc0x, hc0X⟩ :
      ∃ c0 r0, renderCells vt ++ '\n' :: more = c0 :: r0
        ∧ c0.isDigit = false ∧ c0 ≠ 'x' ∧ c0 ≠ 'X' := by
    cases vt with
    | nil => exact ⟨'\n', more, rfl, by decide, by decide, by decide⟩
    | cons u ut =>
        refine ⟨' ', intChars u ++ (renderCells ut ++ '\n' :: more),
          ?_, by decide, by decide, by decide⟩
        simp [renderCells, List.append_assoc]
  have hrest' : st.rest = pre ++ (intChars v ++ (c0 :: r0)) := by
    rw [hrest, hshape]
  have hscan := scanInt_render pre hpre v c0 r0 hc0d hc0x hc0X
  have hcell : readCell .P2 mx row 0 st
      = .cont ⟨fun i j => if i = row ∧ j = 0 then v else st.data i j,
          (row, 0) :: st.writes, st.dataCount + 1, c0 :: r0⟩ := by
    rw [readCell]
    rw [hrest', hscan]
    simp only [Bool.false_eq_true, if_false]
    rw [if_neg (by push_neg; exact ⟨by omega, by omega⟩)]
  obtain ⟨st', hread, hcnt, hrest2, hvals, hpres⟩ :=
    readCells_render mx row vt 1
      ⟨fun i j => if i = row ∧ j = 0 then v else st.data i j,
        (row, 0) :: st.writes, st.dataCount + 1, c0 :: r0⟩
      more hvt hshape.symm
  refine ⟨st', ?_, ?_, hrest2, ?_, ?_⟩
  · rw [readRowFrom, hcell]
    simp only
    exact hread
  · simp only at hcnt
    omega
  · intro j hj
    cases j with
    | zero =>
        rw [hpres row 0 (Or.inr (Or.inl (by omega)))]
        simp
    | succ k =>
        have h1 := hvals k (by omega)
        rw [show k + 1 = 1 + k from by omega, h1,
          show 1 + k = k + 1 from by omega]
        simp
  · intro i j hout
    have h1 : st'.data i j
        = (if i = row ∧ j = 0 then v else st.data i j) := by
      apply hpres i j
      rcases hout with h' | h'
      · exact Or.inl h'
      · exact Or.inr (Or.inr (by omega))
    rw [h1, if_neg]
    rintro ⟨rfl, rfl⟩
    rcases hout with h' | h' <;> omega

/-- Reading `k ≥ 1` rendered rows of width `m + 2` stores the grid values
and leaves exactly the final newline and the trailing stream. -/
theorem readRows_render (mx : Int) (g : ℕ → ℕ → Int) (m : ℕ) :
    ∀ (k row : ℕ) (st : RdState) (pre more : List Char),
      (∀ c ∈ pre, isWs c = true) →
      (∀ i j, row ≤ i → i < row + k → j < m + 2 → 0 ≤ g i j ∧ g i j ≤ mx) →
      st.rest = pre ++ (((List.range' row k).map (fun r =>
        renderRow ((List.range (m + 2)).map (g r)))).flatten ++ more) →
      1 ≤ k →
      ∃ st', readRowsFrom .P2 mx (m + 2) row k st = some st'
        ∧ st'.dataCount = st.dataCount + k * (m + 2)
        ∧ st'.rest = '\n' :: more
        ∧ (∀ i j, row ≤ i → i < row + k → j < m + 2 → st'.data i j = g i j)
        ∧ (∀ i j, i < row ∨ row + k ≤ i → st'.data i j = st.data i j) := by
  intro k
  induction k with
  | zero => intro row st pre more _ _ _ hk1; omega
  | succ k ih =>
      intro row st pre more hpre hg hrest hk1
      have hrv : (List.range (m + 2)).map (g row)
          = g row 0 :: (List.range (m + 1)).map (fun c => g row (c + 1)) := by
        rw [show m + 2 = (m + 1) + 1 from rfl, List.range_succ_eq_map]
        simp [List.map_map, Function.comp]
      have hlen : ((List.range (m + 1)).map (fun c => g row (c + 1))).length
          = m + 1 := by simp
      have hrest1 : st.rest = pre ++ (intChars (g row 0)
          ++ (renderCells ((List.range (m + 1)).map (fun c => g row (c + 1)))
            ++ '\n' :: (((List.range' (row + 1) k).map (fun r =>
              renderRow ((List.range (m + 2)).map (g r)))).flatten ++ more))) := by
        rw [hrest, List.range'_succ, List.map_cons, List.flatten_cons, hrv,
          renderRow]
        simp [List.append_assoc]
      have hvrange : ∀ u ∈ (List.range (m + 1)).map (fun c => g row (c + 1)),
          0 ≤ u ∧ u ≤ mx := by
        intro u hu
        rw [List.mem_map] at hu
        obtain ⟨c, hc, rfl⟩ := hu
        rw [List.mem_range] at hc
        exact hg row (c + 1) (le_refl row) (by omega) (by omega)
      have hv0 : 0 ≤ g row 0 ∧ g row 0 ≤ mx :=
        hg row 0 (le_refl row) (by omega) (by omega)
      obtain ⟨st1, hread1, hcnt1, hrest2, hvals1, hpres1⟩ :=
        readRowFull_render mx row pre hpre (g row 0)
          ((List.range (m + 1)).map (fun c => g row (c + 1)))
          hv0 hvrange st
          (((List.range' (row + 1) k).map (fun r =>
            renderRow ((List.range (m + 2)).map (g r)))).flatten ++ more)
          hrest1
      rw [hlen] at hread1 hcnt1 hvals1 hpres1
      have hrowvals : ∀ j, j < m + 2 → st1.data row j = g row j := by
        intro j hj
        rw [hvals1 j hj]
        cases j with
        | zero => simp
        | succ c =>
            simp only [List.getD_cons_succ]
            exact getD_map_range (fun c => g row (c + 1)) (m + 1) c (by omega)
      rcases Nat.eq_zero_or_pos k with hk0 | hk1'
      · subst hk0
        refine ⟨st1, ?_, by omega, ?_, ?_, ?_⟩
        · rw [readRowsFrom, hread1]
          rfl
        · rw [hrest2]
          simp
        · intro i j hi1 hi2 hj
          have hi : i = row := by omega
          subst hi
          exact hrowvals j hj
        · intro i j hout
          apply hpres1
          left
          omega
      · obtain ⟨st2, hread2, hcnt2, hrest3, hvals2, hpres2⟩ :=
          ih (row + 1) st1 ['\n'] more (by decide)
            (fun i j h1 h2 hj => hg i j (by omega) (by omega) hj)
            (by rw [hrest2]; simp) hk1'
        refine ⟨st2, ?_, ?_, hrest3, ?_, ?_⟩
        · rw [readRowsFrom, hread1]
          simp only
          exact hread2
        · rw [hcnt2, hcnt1]
          have : (k + 1) * (m + 2) = (m + 2) + k * (m + 2) := by ring
          omega
        · intro i j hi1 hi2 hj
          rcases Nat.lt_or_ge i (row + 1) with hi | hi
          · have hieq : i = row := by omega
            subst hieq
            rw [hpres2 i j (Or.inl (by omega))]
            exact hrowvals j hj
          · exact hvals2 i j hi (by omega) hj
        · intro i j hout
          rw [hpres2 i j (by omega)]
          apply hpres1
          left
          omega

/-- One written P2 row of width `m + 2` is exactly the rendered row: bare
first sample, space-prefixed middle samples, space-prefixed last sample with
a trailing newline. -/
theorem writeRow_render (info : PgmInfo) (g : ℕ → ℕ → Int) (r m : ℕ)
    (hty : info.type = .P2) (hw : info.width = (m : Int) + 2) :
    ((List.range (m + 2)).map (fun col => writeCell info g r col)).flatten
      = renderRow ((List.range (m + 2)).map (g r)) := by
  have hcell0 : writeCell info g r 0 = intChars (g r 0) := by
    rw [writeCell, if_pos hty, if_pos rfl]
  have hcellMid : ∀ c, c < m →
      writeCell info g r (c + 1) = ' ' :: intChars (g r (c + 1)) := by
    intro c hc
    rw [writeCell, if_pos hty, if_neg (by omega), if_neg]
    rw [hw]
    intro h
    push_cast at h
    omega
  have hcellLast : writeCell info g r (m + 1)
      = ' ' :: intChars (g r (m + 1)) ++ ['\n'] := by
    rw [writeCell, if_pos hty, if_neg (by omega), if_pos]
    rw [hw]
    push_cast
    ring
  have hL : ((List.range (m + 2)).map (fun col => writeCell info g r col)).flatten
      = intChars (g r 0)
        ++ ((((List.range m).map (fun c => ' ' :: intChars (g r (c + 1)))).flatten)
          ++ (' ' :: intChars (g r (m + 1)) ++ ['\n'])) := by
    rw [show m + 2 = (m + 1) + 1 from rfl, List.range_succ_eq_map]
    rw [List.map_cons, List.flatten_cons, hcell0, List.map_map]
    rw [List.range_succ, List.map_append, List.flatten_append]
    have hmid : (List.range m).map ((fun col => writeCell info g r col) ∘ Nat.succ)
        = (List.range m).map (fun c => ' ' :: intChars (g r (c + 1))) := by
      apply List.map_congr_left
      intro c hc
      simp only [Function.comp]
      exact hcellMid c (List.mem_range.mp hc)
    rw [hmid]
    simp only [List.map_cons, List.map_nil, List.flatten_cons, List.flatten_nil,
      List.append_nil, Function.comp]
    rw [hcellLast]
  have hR : renderRow ((List.range (m + 2)).map (g r))
      = intChars (g r 0)
        ++ ((((List.range m).map (fun c => ' ' :: intChars (g r (c + 1)))).flatten)
          ++ (' ' :: intChars (g r (m + 1)) ++ ['\n'])) := by
    rw [show m + 2 = (m + 1) + 1 from rfl, List.range_succ_eq_map]
    rw [List.map_cons, List.map_map]
    rw [show (g r) ∘ Nat.succ = fun c => g r (c + 1) from rfl]
    rw [renderRow]
    rw [List.range_succ, List.map_append]
    rw [show renderCells (((List.range m).map fun c => g r (c + 1))
        ++ [m].map fun c => g r (c + 1))
      = renderCells ((List.range m).map fun c => g r (c + 1))
        ++ renderCells ([m].map fun c => g r (c + 1)) from by
      simp [renderCells]]
    rw [show renderCells ([m].map fun c => g r (c + 1))
      = ' ' :: intChars (g r (m + 1)) from by simp [renderCells]]
    rw [show renderCells ((List.range m).map fun c => g r (c + 1))
      = ((List.range m).map (fun c => ' ' :: intChars (g r (c + 1)))).flatten from by
      simp [renderCells, List.map_map]; rfl]
    simp [List.append_assoc]
  rw [hL, hR]

/-- `WritePgmData` of a P2 descriptor of width `m + 2` is the concatenation
of the rendered rows. -/
theorem WritePgmData_render (info : PgmInfo) (g : ℕ → ℕ → Int) (m : ℕ)
    (hty : info.type = .P2) (hw : info.width = (m : Int) + 2) :
    WritePgmData info g = ((List.range info.height.toNat).map (fun r =>
      renderRow ((List.range (m + 2)).map (g r)))).flatten := by
  rw [WritePgmData]
  have hwn : info.width.toNat = m + 2 := by omega
  rw [hwn]
  congr 1
  apply List.map_congr_left
  intro r _
  exact writeRow_render info g r m hty hw

/-- A successful `TryReadPgmInfo` with expected type P2 yields a P2
descriptor. -/
theorem TryReadPgmInfo_P2_type (s : List Char) (info : PgmInfo)
    (rest : List Char) (h : TryReadPgmInfo .P2 s = .ok (info, rest)) :
    info.type = .P2 := by
  rw [TryReadPgmInfo] at h
  cases hraw : rawReadPgmInfo s
  case none => rw [hraw] at h; simp at h
  case some q =>
    obtain ⟨tok, w0, h0, m0, rest0⟩ := q
    rw [hraw] at h
    simp only at h
    rw [if_neg (show ¬(PgmType.P2 = PgmType.UNKNOWN
      ∧ StrToPgmType tok ≠ PgmType.UNKNOWN) by simp)] at h
    by_cases hT : PgmType.P2 ≠ StrToPgmType tok
    · rw [if_pos hT] at h
      simp at h
    · rw [if_neg hT] at h
      simp only [Except.ok.injEq, Prod.mk.injEq] at h
      rw [← h.1]

/-- C2 (amended): for an ASCII decode with width ≥ 2 and height ≥ 1 and
maxValue ≤ 255, decoding, re-encoding as ASCII with the identity transform
and decoding again succeeds with the same descriptor and the same sample
grid.  (For width 1 the claim fails: see the width-1 counterexample.) -/
theorem c2_ascii_round_trip (s : List Char)
    (hok : (pgmDecode .P2 s).isOk = true)
    (hw2 : 2 ≤ (decInfo (pgmDecode .P2 s)).width)
    (hh1 : 1 ≤ (decInfo (pgmDecode .P2 s)).height)
    (_hmx : (decInfo (pgmDecode .P2 s)).maxDataValue ≤ 255) :
    (decodeEncodeDecode .P2 s).isOk = true
      ∧ decInfo (decodeEncodeDecode .P2 s) = decInfo (pgmDecode .P2 s)
      ∧ ∀ i j, i < (decInfo (pgmDecode .P2 s)).height.toNat →
          j < (decInfo (pgmDecode .P2 s)).width.toNat →
          decData (decodeEncodeDecode .P2 s) i j
            = decData (pgmDecode .P2 s) i j := by
  obtain ⟨r, hr⟩ := pgmDecode_isOk_exists .P2 s hok
  obtain ⟨info, rest, st, hinfo, hdata, rfl⟩ := pgmDecode_eq_ok .P2 s r hr
  rw [hr] at hw2 hh1
  simp only [decInfo] at hw2 hh1
  have hP2 := TryReadPgmInfo_P2_type s info rest hinfo
  obtain ⟨hrows, hcount, _⟩ := TryReadPgmData_ok info rest st hdata
  obtain ⟨hle, hfull, _⟩ := readRowsFrom_facts info.type info.maxDataValue
    info.width.toNat info.height.toNat 0 _ st hrows
  obtain ⟨m, hm⟩ : ∃ m, info.width.toNat = m + 2 :=
    ⟨info.width.toNat - 2, by omega⟩
  have hwInt : info.width = (m : Int) + 2 := by omega
  have hcast : (st.dataCount : Int)
      = (info.height.toNat * info.width.toNat : ℕ) := by
    rw [hcount]
    push_cast
    rw [Int.toNat_of_nonneg (by omega), Int.toNat_of_nonneg (by omega)]
    ring
  have hcnt : st.dataCount = info.height.toNat * info.width.toNat :=
    Int.natCast_inj.mp hcast
  have hrange : ∀ i j, i < info.height.toNat → j < m + 2 →
      0 ≤ st.data i j ∧ st.data i j ≤ info.maxDataValue := by
    intro i j hi hj
    exact hfull (by simpa using hcnt) i j (Nat.zero_le i) (by omega) (by omega)
  have hGD : GetData st.data = st.data := rfl
  have hbodyEq := WritePgmData_render info (GetData st.data) m hP2 hwInt
  rw [hGD] at hbodyEq
  have hflat : WritePgmData info st.data
      = ((List.range' 0 info.height.toNat).map (fun r =>
        renderRow ((List.range (m + 2)).map (st.data r)))).flatten := by
    rw [hbodyEq, List.range_eq_range' info.height.toNat]
  obtain ⟨k', hk'⟩ : ∃ k', info.height.toNat = k' + 1 :=
    ⟨info.height.toNat - 1, by omega⟩
  have hsplit : List.range' 0 info.height.toNat = 0 :: List.range' 1 k' := by
    rw [hk', List.range'_succ]
  have hrv0 : (List.range (m + 2)).map (st.data 0)
      = st.data 0 0 :: (List.range (m + 1)).map (fun c => st.data 0 (c + 1)) := by
    rw [show m + 2 = (m + 1) + 1 from rfl, List.range_succ_eq_map]
    simp [List.map_map, Function.comp]
  have hbody1 : WritePgmData info st.data
      = intChars (st.data 0 0)
        ++ ((renderCells ((List.range (m + 1)).map (fun c => st.data 0 (c + 1)))
          ++ ['\n'])
          ++ ((List.range' 1 k').map (fun r =>
            renderRow ((List.range (m + 2)).map (st.data r)))).flatten) := by
    rw [hflat, hsplit, List.map_cons, List.flatten_cons, hrv0, renderRow]
    simp [List.append_assoc]
  have hskip : skipWs (WritePgmData info st.data)
      = WritePgmData info st.data := by
    rw [hbody1]
    exact skipWs_intChars_append _ (hrange 0 0 (by omega) (by omega)).1 _
  have hhdr := TryReadPgmInfo_render info hP2
    (WritePgmData info st.data) hskip
  obtain ⟨st2, hread2, hcnt2, hrest2, hvals2, _⟩ :=
    readRows_render info.maxDataValue st.data m info.height.toNat 0
      ⟨fun _ _ => 0, [], 0, WritePgmData info st.data⟩ [] []
      (by simp)
      (fun i j h1 h2 hj => hrange i j (by omega) hj)
      (by simpa using hflat)
      (by omega)
  have hcast2 : (st2.dataCount : Int) = info.width * info.height := by
    rw [hcnt2]
    simp only
    push_cast
    rw [Int.toNat_of_nonneg (by omega), hwInt]
    ring
  have hdata2 : TryReadPgmData info (WritePgmData info st.data)
      = .ok st2 := by
    rw [TryReadPgmData, hP2, hm, hread2]
    simp only
    split
    · rename_i hcond
      exfalso
      rcases hcond with ⟨hp5, _⟩ | hne2
      · exact absurd hp5 (by decide)
      · exact hne2 hcast2
    · rfl
  have hdec2 : pgmDecode .P2 (WritePgmInfo info
        ++ WritePgmData info st.data)
      = .ok ⟨info, st2.data, st2.writes, st2.rest⟩ := by
    rw [pgmDecode, hhdr]
    simp only
    rw [hdata2]
  have hDED : decodeEncodeDecode .P2 s
      = .ok ⟨info, st2.data, st2.writes, st2.rest⟩ := by
    rw [decodeEncodeDecode, hr]
    simp only
    rw [hGD]
    exact hdec2
  refine ⟨by rw [hDED]; simp [Except.isOk, Except.toBool],
    by rw [hDED, hr]; simp [decInfo], ?_⟩
  intro i j hi hj
  rw [hr] at hi hj
  simp only [decInfo] at hi hj
  rw [hDED, hr]
  simp only [decData]
  exact hvals2 i j (Nat.zero_le i) (by omega) (by omega)

set_option maxRecDepth 8000 in
/-- C2 counterexample: the well-formed width-1 ASCII input `c2input`
(two rows, samples 5 and 7, maxValue 255) decodes, but decoding its ASCII
re-encoding fails — the width-1 writer emits no newline or separator, so the
re-decode runs into end of file and discards the sample. -/
theorem c2_width1_round_trip_fails :
    (pgmDecode .P2 c2input).isOk = true
      ∧ (decodeEncodeDecode .P2 c2input).isOk = false := by decide

set_option maxRecDepth 8000 in
/-- Witness for `c2_ascii_round_trip` on a 2×2 ASCII image. -/
theorem c2_ascii_round_trip_witness :
    ((pgmDecode .P2 "P2\nc\n2 2\n255\n1 2\n3 4\n".toList).isOk = true
        ∧ 2 ≤ (decInfo (pgmDecode .P2 "P2\nc\n2 2\n255\n1 2\n3 4\n".toList)).width
        ∧ 1 ≤ (decInfo (pgmDecode .P2 "P2\nc\n2 2\n255\n1 2\n3 4\n".toList)).height
        ∧ (decInfo (pgmDecode .P2
            "P2\nc\n2 2\n255\n1 2\n3 4\n".toList)).maxDataValue ≤ 255)
      ∧ (decodeEncodeDecode .P2 "P2\nc\n2 2\n255\n1 2\n3 4\n".toList).isOk = true
      ∧ decData (decodeEncodeDecode .P2 "P2\nc\n2 2\n255\n1 2\n3 4\n".toList) 1 1
          = decData (pgmDecode .P2 "P2\nc\n2 2\n255\n1 2\n3 4\n".toList) 1 1 := by
  refine ⟨⟨by decide, by decide, by decide, by decide⟩, ?_⟩
  have h := c2_ascii_round_trip "P2\nc\n2 2\n255\n1 2\n3 4\n".toList
    (by decide) (by decide) (by decide) (by decide)
  exact ⟨h.1, h.2.2 1 1 (by decide) (by decide)⟩

end Pnmdump
